import Mathlib

/-!
Verification development for the grammar-to-graph compiler in
`deps/query_syntax_to_dot.py`.  The script loads a YAML document with a
`types` mapping and a `rules` mapping, deduplicates structurally identical
stack states into graph nodes keyed by `json.dumps(stack, sort_keys=True)`,
renders per-rule operation nodes, and links rules through their `next`
lists, streaming Graphviz statements to standard output.

The embedding below translates that script into pure Lean functions.  The
Python globals (`NODES`, `NODES_BY_NAME`), the per-run `nodes` dictionary
and the stream of `print` calls are threaded through an explicit `GState`
record; each `print(...)` call appends exactly the printed text (with the
`end` terminator, `"\n"` by default) to `GState.out`.  Python exceptions
(`KeyError`, `TypeError`, `AttributeError`) become `Except` errors that
carry the state reached when the exception was raised, so the output
emitted before an abort stays observable.  `GState.allocs` is a ghost
trace recording each freshly allocated node identity in order; it mirrors
the successive values taken by the global `NODES` counter and is used only
in specifications.
-/

/-- Scalar YAML values that can appear in a stack entry: `null`, a string,
or a list of strings (the `what` alternatives form). -/
inductive FieldVal where
  | vnull : FieldVal
  | vstr : String → FieldVal
  | varr : List String → FieldVal
deriving DecidableEq, Repr

/-- One stack entry: a YAML mapping, kept in insertion order like a Python
dict (keys are unique in any real document). -/
abbrev Entry := List (String × FieldVal)

/-- A stack state: `none` is the explicit empty/terminal marker
(YAML `null`, Python `None`), otherwise an ordered list of entries. -/
abbrev Stack := Option (List Entry)

/-- One rule of the grammar.  `fromStack`/`toStack` model `rule["from"]`
and `rule["to"]` (the script indexes them directly and every document
provides them).  `by_` models presence of the `"by"` key: `none` means the
key is absent (so `rule["by"]` raises `KeyError`), `some none` means the
key maps to `null`, `some (some ops)` is a list of `[symbol, description]`
pairs.  `nexts` models `rule.get("next", [])`: `none` when the key is
absent. -/
structure Rule where
  fromStack : Stack
  toStack : Stack
  by_ : Option (Option (List (String × String)))
  nexts : Option (List String)
deriving DecidableEq, Repr

/-- The top-level `types` mapping; opaque pass-through in the script. -/
abbrev Types := List (String × FieldVal)

/-- The loaded YAML document: `data["types"]` and `data["rules"]` in
insertion order. -/
structure Doc where
  types : Types
  rules : List (String × Rule)
deriving DecidableEq, Repr

/-- Python exceptions that the script can raise while building the graph. -/
inductive PyErr where
  | keyError : String → PyErr
  | typeError : String → PyErr
  | attributeError : String → PyErr
deriving DecidableEq, Repr

/-- The mutable state of a run: the `NODES` counter, the `nodes`
deduplication dict (insertion-ordered association list), the
`NODES_BY_NAME` dict, the pieces printed so far, and the ghost allocation
trace. -/
structure GState where
  counter : Nat
  nodes : List (String × Nat)
  nodesByName : List (String × (Nat × Nat))
  out : List String
  allocs : List Nat
deriving DecidableEq, Repr

/-- One `print` call: append the printed text to the output stream. -/
def emit (st : GState) (piece : String) : GState :=
  { st with out := st.out ++ [piece] }

/-- Several `print` calls in order. -/
def emits (st : GState) (pieces : List String) : GState :=
  pieces.foldl emit st

/-- Python dict lookup on an insertion-ordered association list. -/
def pyLookup {β : Type} (k : String) : List (String × β) → Option β
  | [] => none
  | (k', v) :: rest => if k = k' then some v else pyLookup k rest

/-- Lower-case hexadecimal digit, as produced by Python's `json` module. -/
def hexDigit (n : Nat) : Char :=
  if n < 10 then Char.ofNat (48 + n) else Char.ofNat (87 + n)

/-- A `\uXXXX` escape for a code point below `0x10000`. -/
def uEsc4 (n : Nat) : List Char :=
  ['\\', 'u', hexDigit (n / 4096 % 16), hexDigit (n / 256 % 16),
   hexDigit (n / 16 % 16), hexDigit (n % 16)]

/-- The `ensure_ascii` escape of a code point, with surrogate pairs above
`0xFFFF`, as produced by `json.dumps`. -/
def uEscape (n : Nat) : List Char :=
  if n < 65536 then uEsc4 n
  else uEsc4 (55296 + (n - 65536) / 1024) ++ uEsc4 (56320 + (n - 65536) % 1024)

/-- Escape of one character inside a JSON string literal, following
`json.dumps` with its default `ensure_ascii=True`. -/
def escChar (c : Char) : List Char :=
  if c = '"' then ['\\', '"']
  else if c = '\\' then ['\\', '\\']
  else if c = '\n' then ['\\', 'n']
  else if c = '\t' then ['\\', 't']
  else if c = '\r' then ['\\', 'r']
  else if c = '\x08' then ['\\', 'b']
  else if c = '\x0c' then ['\\', 'f']
  else if c.toNat < 32 ∨ 127 ≤ c.toNat then uEscape c.toNat
  else [c]

/-- Escape a whole string for a JSON string literal. -/
def escapeJson (s : String) : String :=
  String.mk (s.data.foldr (fun c acc => escChar c ++ acc) [])

/-- A JSON string literal. -/
def jstr (s : String) : String :=
  "\"" ++ escapeJson s ++ "\""

/-- The `sort_keys=True` ordering of a mapping's items: stable sort by key
(Python's `sorted`, realized as an insertion sort). -/
def sortKeys (e : Entry) : Entry :=
  e.insertionSort (fun p q => p.1 ≤ q.1)

/-- Python's `sep.join(parts)`. -/
def strJoin (sep : String) : List String → String
  | [] => ""
  | [x] => x
  | x :: y :: xs => x ++ sep ++ strJoin sep (y :: xs)

/-- JSON serialization of a scalar field value, default separators. -/
def json_val : FieldVal → String
  | .vnull => "null"
  | .vstr s => jstr s
  | .varr ss => "[" ++ strJoin (", ") (ss.map jstr) ++ "]"

/-- JSON serialization of one stack entry with `sort_keys=True`. -/
def json_entry (e : Entry) : String :=
  "\x7b" ++
    strJoin (", ")
      ((sortKeys e).map (fun p => jstr p.1 ++ ": " ++ json_val p.2)) ++
    "\x7d"

/-- The canonical key of a stack state: `json.dumps(stack, sort_keys=True)`
with the default `(", ", ": ")` separators. -/
def json_dumps : Stack → String
  | none => "null"
  | some entries =>
    "[" ++ strJoin (", ") (entries.map json_entry) ++ "]"

/-- Python `str()` of a field value, used when a value is interpolated into
an f-string. -/
def pyStr : FieldVal → String
  | .vnull => "None"
  | .vstr s => s
  | .varr ss =>
    "[" ++ strJoin (", ") (ss.map (fun s => "'" ++ s ++ "'")) ++ "]"

/-- The `what` cell text: a string is kept, a list is joined with
`' or '.join`, and `None` raises `TypeError` at the join. -/
def whatText : FieldVal → Except PyErr String
  | .vstr s => .ok s
  | .varr ss => .ok (strJoin (" or ") ss)
  | .vnull => .error (.typeError ("can only join an iterable"))

/-- Fueled core of Python's `str.split(sep)`: non-overlapping left-to-right
splitting that keeps empty parts.  The fuel is an upper bound on the number
of characters still to scan; `pySplit` supplies enough. -/
def pySplitF (sep : List Char) : Nat → List Char → List (List Char)
  | _, [] => [[]]
  | 0, s => [s]
  | fuel + 1, c :: cs =>
    if sep.isPrefixOf (c :: cs) && !sep.isEmpty then
      [] :: pySplitF sep fuel (List.drop sep.length (c :: cs))
    else
      match pySplitF sep fuel cs with
      | [] => [[c]]
      | p :: ps => (c :: p) :: ps

/-- Python's `s.split(sep)` for a non-empty separator. -/
def pySplit (s sep : String) : List String :=
  (pySplitF sep.data s.data.length s.data).map (fun l => String.mk l)

/-- The per-line padding of an extra field value: append
`len(part) // 12` spaces. -/
def padPart (part : String) : String :=
  part ++ String.mk (List.replicate (part.length / 12) (' '))

/-- Rendering of an extra (non-`name`/`what`) field value: `None` becomes
`"~"`, a string is split on `"<br/>"`, each part padded, and re-joined; a
list value raises `AttributeError` at `.split`. -/
def extraFieldText : FieldVal → Except PyErr String
  | .vnull =>
    .ok (strJoin ("<br/>") ((pySplit ("~") ("<br/>")).map padPart))
  | .vstr v =>
    .ok (strJoin ("<br/>") ((pySplit v ("<br/>")).map padPart))
  | .varr _ => .error (.attributeError ("split"))

/-- The `for field, value in state.items()` loop of `print_stack_node`:
emit one extra row per field other than `name` and `what`. -/
def renderFields (st : GState) : Entry → Except (PyErr × GState) GState
  | [] => .ok st
  | (field, value) :: rest =>
    if field = "name" ∨ field = "what" then renderFields st rest
    else
      match extraFieldText value with
      | .error e => .error (e, st)
      | .ok v =>
        let st1 := emit st ("<TR>\n")
        let st2 := emit st1 ("<TD ALIGN=\"LEFT\">" ++ field ++ "</TD>\n")
        let st3 := emit st2 ("<TD ALIGN=\"LEFT\">" ++ v ++ "</TD>\n")
        renderFields (emit st3 ("</TR>\n")) rest

/-- Rendering of a single stack entry: the header row with the `name` and
`what` cells (`"..."` when the name is the literal `rest`), then the extra
field rows. -/
def renderState (st : GState) (state : Entry) : Except (PyErr × GState) GState :=
  let st1 := emit st ("<TR><TD><TABLE CELLSPACING=\"0\">\n")
  let st2 := emit st1 ("<TR>\n")
  let nameV := (pyLookup ("name") state).getD (.vstr ("new"))
  let whatE : Except PyErr String :=
    if nameV = FieldVal.vstr ("rest") then .ok ("...")
    else whatText ((pyLookup ("what") state).getD (.vstr (" ")))
  match whatE with
  | .error e => .error (e, st2)
  | .ok what =>
    let st3 := emit st2 ("<TD ALIGN=\"LEFT\"><B>" ++ pyStr nameV ++ "</B></TD>\n")
    let st4 := emit st3 ("<TD ALIGN=\"LEFT\"><B>" ++ what ++ "</B></TD>\n")
    let st5 := emit st4 ("</TR>\n")
    match renderFields st5 state with
    | .error e => .error e
    | .ok st6 => .ok (emit st6 ("</TABLE></TD></TR>\n"))

/-- Rendering of every entry of a populated stack, in order. -/
def renderStates (st : GState) : List Entry → Except (PyErr × GState) GState
  | [] => .ok st
  | state :: rest =>
    match renderState st state with
    | .error e => .error e
    | .ok st' => renderStates st' rest

/-- The `print_stack_node(nodes, stack)` function: compute the canonical
key, return the existing identity on a hit, otherwise allocate the next
identity, record it, and render the node (point shape for the empty
marker, a bordered table otherwise). -/
def print_stack_node (st : GState) (stack : Stack) :
    Except (PyErr × GState) (Nat × GState) :=
  let key := json_dumps stack
  match pyLookup key st.nodes with
  | some id => .ok (id, st)
  | none =>
    let id := st.counter + 1
    let st1 : GState :=
      { st with
        counter := id
        nodes := st.nodes ++ [(key, id)]
        allocs := st.allocs ++ [id] }
    match stack with
    | none => .ok (id, emit st1 ("N" ++ toString id ++ " [ shape = point ]\n"))
    | some states =>
      let st2 := emit st1 ("N" ++ toString id ++ " [ shape = plain, label=<\n")
      let st3 := emit st2 ("<TABLE BORDER=\"0\">\n")
      match renderStates st3 states with
      | .error e => .error e
      | .ok st4 => .ok (id, emits st4 [("</TABLE>\n"), ("> ];\n")])

/-- The `print_operations_node(operations)` function: `None` yields no
node; otherwise a fresh identity is always allocated and the symbols and
descriptions are printed. -/
def print_operations_node (st : GState)
    (operations : Option (List (String × String))) : Option Nat × GState :=
  match operations with
  | none => (none, st)
  | some ops =>
    let id := st.counter + 1
    let st1 : GState := { st with counter := id, allocs := st.allocs ++ [id] }
    let st2 := emit st1 ("N" ++ toString id ++ " [ shape = plain, label=<")
    let st3 := emit st2 ("<FONT FACE=\"Courier\">\n")
    let st4 := ops.foldl (fun s op => emit s (op.1 ++ " ")) st3
    let st5 := emit st4 ("<br/> ")
    let st6 := ops.foldl (fun s op => emit s ("<br/>" ++ op.2)) st5
    (some id, emits st6 [("</FONT>\n"), ("> ];\n")])

/-- The common `N{from} -> N{to}` stem of an edge statement. -/
def edgeStem (from_node to_node : Nat) : String :=
  "N" ++ toString from_node ++ " -> N" ++ toString to_node

/-- The dashed edge statement printed when `print_edge` gets no label. -/
def dashedE (f t : Nat) : String :=
  edgeStem f t ++ " [ style = dashed ];\n"

/-- The solid unlabeled edge statement printed for the empty-string label. -/
def solidE (f t : Nat) : String :=
  edgeStem f t ++ ";\n"

/-- The solid labeled edge statement: the label text preceded by two
spaces. -/
def labelE (f t : Nat) (name : String) : String :=
  edgeStem f t ++ " [ label = \"  " ++ name ++ "\" ];\n"

/-- The `print_edge(from_node, to_node, name=None)` function: no label
gives a dashed arrow, the empty string a solid unlabeled arrow, any other
label a solid labeled arrow. -/
def print_edge (st : GState) (from_node to_node : Nat) (name : Option String) :
    GState :=
  match name with
  | none => emit st (dashedE from_node to_node)
  | some s =>
    if s = "" then emit st (solidE from_node to_node)
    else emit st (labelE from_node to_node s)

/-- The `print_rule(types, nodes, name, rule)` function.  `types` is
received and ignored, matching the script.  The `from` and `to` nodes are
resolved first, the entry/exit pair is recorded in `NODES_BY_NAME`, and
only then is `rule["by"]` read — an absent `by` key raises `KeyError`
at that point. -/
def print_rule (types : Types) (st : GState) (name : String) (rule : Rule) :
    Except (PyErr × GState) GState :=
  match print_stack_node st rule.fromStack with
  | .error e => .error e
  | .ok (from_node, st1) =>
    match print_stack_node st1 rule.toStack with
    | .error e => .error e
    | .ok (to_node, st2) =>
      let st3 : GState :=
        { st2 with nodesByName := st2.nodesByName ++ [(name, (from_node, to_node))] }
      match rule.by_ with
      | none => .error (.keyError ("by"), st3)
      | some operations =>
        match print_operations_node st3 operations with
        | (none, st4) => .ok (print_edge st4 from_node to_node none)
        | (some operations_node, st4) =>
          let st5 := print_edge st4 from_node operations_node (some name)
          .ok (print_edge st5 operations_node to_node (some ("")))

/-- The body of the `for next in nexts` loop of `connect_node`: look each
successor up in `NODES_BY_NAME` (raising `KeyError` for an unknown rule)
and draw a dashed edge to its entry node. -/
def connect_nexts (node_to : Nat) :
    GState → List String → Except (PyErr × GState) GState
  | st, [] => .ok st
  | st, next :: rest =>
    match pyLookup next st.nodesByName with
    | none => .error (.keyError next, st)
    | some nxt => connect_nexts node_to (print_edge st node_to nxt.1 none) rest

/-- The `connect_node(name, nexts)` function. -/
def connect_node (st : GState) (name : String) (nexts : List String) :
    Except (PyErr × GState) GState :=
  match pyLookup name st.nodesByName with
  | none => .error (.keyError name, st)
  | some ft => connect_nexts ft.2 st nexts

/-- The first pass of `print_graph`: `print_rule` over every rule in
declaration order. -/
def rulesPass (types : Types) :
    GState → List (String × Rule) → Except (PyErr × GState) GState
  | st, [] => .ok st
  | st, (name, rule) :: rest =>
    match print_rule types st name rule with
    | .error e => .error e
    | .ok st' => rulesPass types st' rest

/-- The second pass of `print_graph`: `connect_node` over every rule with
`rule.get("next", [])`. -/
def linkPass : GState → List (String × Rule) → Except (PyErr × GState) GState
  | st, [] => .ok st
  | st, (name, rule) :: rest =>
    match connect_node st name (rule.nexts.getD []) with
    | .error e => .error e
    | .ok st' => linkPass st' rest

/-- The state at interpreter start: the globals `NODES = 0` and
`NODES_BY_NAME = {}`, the fresh `nodes = {}` dict, and nothing printed. -/
def init_state : GState :=
  { counter := 0, nodes := [], nodesByName := [], out := [], allocs := [] }

/-- The fixed preamble printed by `print_graph` before any rule. -/
def preamble : List String :=
  [("digraph \x7b\n"),
   ("fontname = \"Sans-Serif\";\n"),
   ("node [ fontname = \"Sans-Serif\" ];\n"),
   ("edge [ fontname = \"Sans-Serif\" ];\n"),
   ("concentrate = true;\n")]

/-- The closing graph terminator printed by the final `print('}')`. -/
def footerPiece : String := "\x7d\n"

/-- The whole `print_graph()` run on an already-loaded document: preamble,
rule pass, linking pass, closing terminator.  An exception anywhere aborts
the run, keeping the output printed so far. -/
def print_graph (data : Doc) : Except (PyErr × GState) GState :=
  let st0 := emits init_state preamble
  match rulesPass data.types st0 data.rules with
  | .error e => .error e
  | .ok st1 =>
    match linkPass st1 data.rules with
    | .error e => .error e
    | .ok st2 => .ok (emit st2 footerPiece)

/-- The state a run ends in, whether it completed or aborted. -/
def resState : Except (PyErr × GState) GState → GState
  | .ok st => st
  | .error e => e.2

/-- The state after a stack-node resolution, successful or not. -/
def resStateN : Except (PyErr × GState) (Nat × GState) → GState
  | .ok p => p.2
  | .error e => e.2

/-- Whether a fallible step succeeded. -/
def isOkR {α : Type} : Except (PyErr × GState) α → Bool
  | .ok _ => true
  | .error _ => false

/-- The exception of a failed step, if any. -/
def errOf {α : Type} : Except (PyErr × GState) α → Option PyErr
  | .ok _ => none
  | .error e => some e.1

/-- Ghost invariant: the allocation trace is exactly the identities
`1, 2, …, counter`, in order. -/
def InvA (st : GState) : Prop :=
  st.allocs = List.range' 1 st.counter

/-- Registry invariant of the deduplication dict: canonical keys are
unique, identities are unique, and every stored identity is at most the
current counter. -/
def RegOK (st : GState) : Prop :=
  (st.nodes.map Prod.fst).Nodup ∧ (st.nodes.map Prod.snd).Nodup ∧
    ∀ p ∈ st.nodes, p.2 ≤ st.counter

/-- No piece printed so far is the closing graph terminator line. -/
def NoFooter (st : GState) : Prop :=
  ∀ p ∈ st.out, p ≠ footerPiece

instance : ∀ st, Decidable (InvA st) := by
  intro st; unfold InvA; infer_instance

instance : ∀ st, Decidable (RegOK st) := by
  intro st; unfold RegOK; infer_instance

instance : ∀ st, Decidable (NoFooter st) := by
  intro st; unfold NoFooter; exact List.decidableBAll _ _

/-- Characters that `json.dumps` copies verbatim into a string literal:
printable ASCII other than the quote and the backslash. -/
def PlainChar (c : Char) : Prop :=
  c ≠ '"' ∧ c ≠ '\\' ∧ 32 ≤ c.toNat ∧ c.toNat < 127

/-- A string all of whose characters are plain. -/
def PlainStr (s : String) : Prop :=
  ∀ c ∈ s.data, PlainChar c

/-- A scalar value whose strings are all plain. -/
def ValCanon : FieldVal → Prop
  | .vnull => True
  | .vstr s => PlainStr s
  | .varr ss => ∀ s ∈ ss, PlainStr s

/-- A canonical stack entry: field names strictly increasing (the
representative of a Python dict chosen by `sort_keys=True`) and all
strings plain. -/
def EntryCanon (e : Entry) : Prop :=
  (e.map Prod.fst).Pairwise (· < ·) ∧ ∀ p ∈ e, PlainStr p.1 ∧ ValCanon p.2

/-- A canonical stack state: every entry canonical. -/
def Canonical : Stack → Prop
  | none => True
  | some es => ∀ e ∈ es, EntryCanon e

instance : ∀ c, Decidable (PlainChar c) := by
  intro c; unfold PlainChar; infer_instance

instance : ∀ s, Decidable (PlainStr s) := by
  intro s; unfold PlainStr; exact List.decidableBAll _ _

instance : ∀ v, Decidable (ValCanon v) := by
  intro v
  unfold ValCanon
  match v with
  | .vnull => infer_instance
  | .vstr s => infer_instance
  | .varr ss => exact List.decidableBAll _ _

instance : ∀ e, Decidable (EntryCanon e) := by
  intro e; unfold EntryCanon; infer_instance

instance : ∀ s, Decidable (Canonical s) := by
  intro s
  unfold Canonical
  match s with
  | none => infer_instance
  | some es => exact List.decidableBAll _ _

/-!
A reference parser for the canonical serialization, used only to show the
serialization injective on canonical stacks: parsing is a left inverse of
`json_dumps`, so equal keys force equal stacks.
-/

/-- Read the characters of a string literal after its opening quote, up to
the closing quote. -/
def takeStr : List Char → Option (List Char × List Char)
  | [] => none
  | c :: cs =>
    if c = '"' then some ([], cs)
    else
      match takeStr cs with
      | none => none
      | some (s, r) => some (c :: s, r)

/-- Parse one quoted string literal. -/
def parseQStr : List Char → Option (List Char × List Char)
  | '"' :: cs => takeStr cs
  | _ => none

/-- Parse one or more `", "`-separated string literals up to a closing
bracket. -/
def parseSepQStrs : Nat → List Char → Option (List String × List Char)
  | 0, _ => none
  | fuel + 1, l =>
    match parseQStr l with
    | none => none
    | some (s, r) =>
      match r with
      | ']' :: r2 => some ([String.mk s], r2)
      | ',' :: ' ' :: r2 =>
        match parseSepQStrs fuel r2 with
        | none => none
        | some (ss, r3) => some (String.mk s :: ss, r3)
      | _ => none

/-- Parse a possibly empty bracketed list body of string literals. -/
def parseQStrList (fuel : Nat) : List Char → Option (List String × List Char)
  | ']' :: r => some ([], r)
  | l => parseSepQStrs fuel l

/-- Parse one scalar value: `null`, a string literal, or a list of string
literals. -/
def parseVal (fuel : Nat) : List Char → Option (FieldVal × List Char)
  | 'n' :: 'u' :: 'l' :: 'l' :: r => some (.vnull, r)
  | '"' :: cs =>
    match takeStr cs with
    | none => none
    | some (s, r) => some (.vstr (String.mk s), r)
  | '[' :: cs =>
    match parseQStrList fuel cs with
    | none => none
    | some (ss, r) => some (.varr ss, r)
  | _ => none

/-- Parse one or more `"key": value` pairs up to the closing brace. -/
def parsePairs : Nat → List Char → Option (Entry × List Char)
  | 0, _ => none
  | fuel + 1, l =>
    match parseQStr l with
    | none => none
    | some (k, r) =>
      match r with
      | ':' :: ' ' :: r2 =>
        match parseVal fuel r2 with
        | none => none
        | some (v, r3) =>
          match r3 with
          | '\x7d' :: r4 => some ([(String.mk k, v)], r4)
          | ',' :: ' ' :: r4 =>
            match parsePairs fuel r4 with
            | none => none
            | some (e, r5) => some ((String.mk k, v) :: e, r5)
          | _ => none
      | _ => none

/-- Parse one serialized entry (a possibly empty JSON object). -/
def parseEntry (fuel : Nat) : List Char → Option (Entry × List Char)
  | '\x7b' :: '\x7d' :: r => some ([], r)
  | '\x7b' :: cs => parsePairs fuel cs
  | _ => none

/-- Parse one or more `", "`-separated entries up to the closing bracket. -/
def parseEntries : Nat → Nat → List Char → Option (List Entry × List Char)
  | _, 0, _ => none
  | pfuel, fuel + 1, l =>
    match parseEntry pfuel l with
    | none => none
    | some (e, r) =>
      match r with
      | ']' :: r2 => some ([e], r2)
      | ',' :: ' ' :: r2 =>
        match parseEntries pfuel fuel r2 with
        | none => none
        | some (es, r3) => some (e :: es, r3)
      | _ => none

/-- Parse a possibly empty bracketed list body of entries. -/
def parseEntryList (pfuel fuel : Nat) : List Char → Option (List Entry × List Char)
  | ']' :: r => some ([], r)
  | l => parseEntries pfuel fuel l

/-- Parse a whole serialized stack state. -/
def parseStack (pfuel fuel : Nat) : List Char → Option (Stack × List Char)
  | 'n' :: 'u' :: 'l' :: 'l' :: r => some (none, r)
  | '[' :: cs =>
    match parseEntryList pfuel fuel cs with
    | none => none
    | some (es, r) => some (some es, r)
  | _ => none

/-!
Relational model of a whole run, used to state determinism: a derivation
of `RunsR d out` is one complete execution of `print_graph()` on the
document `d` that printed exactly `out`.  The two constructors of each
pass mirror the two `for name, rule in data["rules"].items()` loops.
-/

/-- One execution of the first pass over a list of rules. -/
inductive RulesPassR (types : Types) : GState → List (String × Rule) → GState → Prop where
  | nil : ∀ st, RulesPassR types st [] st
  | cons : ∀ st st1 st2 name rule rest,
      print_rule types st name rule = .ok st1 →
      RulesPassR types st1 rest st2 →
      RulesPassR types st ((name, rule) :: rest) st2

/-- One execution of the linking pass over a list of rules. -/
inductive LinkPassR : GState → List (String × Rule) → GState → Prop where
  | nil : ∀ st, LinkPassR st [] st
  | cons : ∀ st st1 st2 name rule rest,
      connect_node st name (rule.nexts.getD []) = .ok st1 →
      LinkPassR st1 rest st2 →
      LinkPassR st ((name, rule) :: rest) st2

/-- One complete run of `print_graph()` on `d`, printing `out`. -/
inductive RunsR : Doc → List String → Prop where
  | mk : ∀ d st1 st2,
      RulesPassR d.types (emits init_state preamble) d.rules st1 →
      LinkPassR st1 d.rules st2 →
      RunsR d ((emit st2 footerPiece).out)

/-- Example rule used as a concrete witness input: both stacks are the
empty marker, `by` is the explicit null marker, and the successor list
names the undefined rule `b`. -/
def ruleDangling : Rule :=
  { fromStack := none, toStack := none, by_ := some none, nexts := some [("b")] }

/-- Example document with the single rule `a`, whose `next` list names the
undefined rule `b`. -/
def docDangling : Doc :=
  { types := [], rules := [(("a"), ruleDangling)] }

/-- Example stack used as a concrete witness input: two one-field entries
in one order. -/
def s1C1 : Stack :=
  some [[(("name"), FieldVal.vstr ("a"))], [(("name"), FieldVal.vstr ("b"))]]

/-- The same two entries in the other order: structurally different. -/
def s2C1 : Stack :=
  some [[(("name"), FieldVal.vstr ("b"))], [(("name"), FieldVal.vstr ("a"))]]

/-- A registry state that has already registered `s1C1` as node 1. -/
def stC1 : GState :=
  { counter := 1, nodes := [(json_dumps s1C1, 1)], nodesByName := [], out := [],
    allocs := [1] }

/-! Basic facts about printing and dictionary lookup. -/

theorem emit_out (st : GState) (p : String) : (emit st p).out = st.out ++ [p] := rfl

theorem emit_counter (st : GState) (p : String) : (emit st p).counter = st.counter := rfl

theorem emit_nodes (st : GState) (p : String) : (emit st p).nodes = st.nodes := rfl

theorem emit_nbn (st : GState) (p : String) :
    (emit st p).nodesByName = st.nodesByName := rfl

theorem emit_allocs (st : GState) (p : String) : (emit st p).allocs = st.allocs := rfl

theorem emits_out (ps : List String) : ∀ st : GState, (emits st ps).out = st.out ++ ps := by
  induction ps with
  | nil => intro st; simp [emits]
  | cons p ps ih =>
    intro st
    show (emits (emit st p) ps).out = _
    rw [ih, emit_out, List.append_assoc]
    rfl

theorem emits_counter (ps : List String) : ∀ st : GState, (emits st ps).counter = st.counter := by
  induction ps with
  | nil => intro st; rfl
  | cons p ps ih => intro st; exact ih (emit st p)

theorem emits_nodes (ps : List String) : ∀ st : GState, (emits st ps).nodes = st.nodes := by
  induction ps with
  | nil => intro st; rfl
  | cons p ps ih => intro st; exact ih (emit st p)

theorem emits_nbn (ps : List String) :
    ∀ st : GState, (emits st ps).nodesByName = st.nodesByName := by
  induction ps with
  | nil => intro st; rfl
  | cons p ps ih => intro st; exact ih (emit st p)

theorem emits_allocs (ps : List String) : ∀ st : GState, (emits st ps).allocs = st.allocs := by
  induction ps with
  | nil => intro st; rfl
  | cons p ps ih => intro st; exact ih (emit st p)

theorem foldl_emit_out {α : Type} (f : α → String) (l : List α) :
    ∀ st : GState, (List.foldl (fun s a => emit s (f a)) st l).out = st.out ++ l.map f := by
  induction l with
  | nil => intro st; simp
  | cons a l ih =>
    intro st
    show (List.foldl _ (emit st (f a)) l).out = _
    rw [ih, emit_out, List.append_assoc]
    rfl

theorem foldl_emit_counter {α : Type} (f : α → String) (l : List α) :
    ∀ st : GState, (List.foldl (fun s a => emit s (f a)) st l).counter = st.counter := by
  induction l with
  | nil => intro st; rfl
  | cons a l ih => intro st; exact ih (emit st (f a))

theorem foldl_emit_nodes {α : Type} (f : α → String) (l : List α) :
    ∀ st : GState, (List.foldl (fun s a => emit s (f a)) st l).nodes = st.nodes := by
  induction l with
  | nil => intro st; rfl
  | cons a l ih => intro st; exact ih (emit st (f a))

theorem foldl_emit_nbn {α : Type} (f : α → String) (l : List α) :
    ∀ st : GState, (List.foldl (fun s a => emit s (f a)) st l).nodesByName = st.nodesByName := by
  induction l with
  | nil => intro st; rfl
  | cons a l ih => intro st; exact ih (emit st (f a))

theorem foldl_emit_allocs {α : Type} (f : α → String) (l : List α) :
    ∀ st : GState, (List.foldl (fun s a => emit s (f a)) st l).allocs = st.allocs := by
  induction l with
  | nil => intro st; rfl
  | cons a l ih => intro st; exact ih (emit st (f a))

theorem pyLookup_mem {β : Type} {k : String} {v : β} :
    ∀ {l : List (String × β)}, pyLookup k l = some v → (k, v) ∈ l := by
  intro l
  induction l with
  | nil => intro h; simp [pyLookup] at h
  | cons p rest ih =>
    obtain ⟨k', v'⟩ := p
    intro h
    simp only [pyLookup] at h
    by_cases hk : k = k'
    · rw [if_pos hk] at h
      cases h
      subst hk
      exact List.mem_cons_self _ _
    · rw [if_neg hk] at h
      exact List.mem_cons_of_mem _ (ih h)

theorem pyLookup_none_iff {β : Type} {k : String} :
    ∀ {l : List (String × β)}, pyLookup k l = none ↔ k ∉ l.map Prod.fst := by
  intro l
  induction l with
  | nil => simp [pyLookup]
  | cons p rest ih =>
    obtain ⟨k', v'⟩ := p
    simp only [pyLookup, List.map_cons, List.mem_cons]
    by_cases hk : k = k'
    · simp [hk]
    · simp [hk, ih]

theorem pyLookup_of_mem_nodup {β : Type} {k : String} {v : β} :
    ∀ {l : List (String × β)}, (l.map Prod.fst).Nodup → (k, v) ∈ l →
      pyLookup k l = some v := by
  intro l
  induction l with
  | nil => intro _ h; simp at h
  | cons p rest ih =>
    obtain ⟨k', v'⟩ := p
    intro hnd hm
    simp only [List.map_cons, List.nodup_cons] at hnd
    rcases List.mem_cons.mp hm with heq | htail
    · cases heq
      simp [pyLookup]
    · have hk : k ≠ k' := by
        intro hkk
        subst hkk
        exact hnd.1 (List.mem_map.mpr ⟨(k, v), htail, rfl⟩)
      simp only [pyLookup, if_neg hk]
      exact ih hnd.2 htail

theorem pyLookup_append {β : Type} (k : String) (l1 l2 : List (String × β)) :
    pyLookup k (l1 ++ l2) =
      match pyLookup k l1 with
      | some v => some v
      | none => pyLookup k l2 := by
  induction l1 with
  | nil => simp [pyLookup]
  | cons p rest ih =>
    obtain ⟨k', v'⟩ := p
    by_cases hk : k = k'
    · simp [pyLookup, hk]
    · simpa [pyLookup, hk] using ih

/-! Registry preservation: the label-rendering helpers only print. -/

theorem renderFields_reg : ∀ (e : Entry) (st : GState),
    (resState (renderFields st e)).counter = st.counter ∧
    (resState (renderFields st e)).nodes = st.nodes ∧
    (resState (renderFields st e)).nodesByName = st.nodesByName ∧
    (resState (renderFields st e)).allocs = st.allocs := by
  intro e
  induction e with
  | nil => intro st; exact ⟨rfl, rfl, rfl, rfl⟩
  | cons p rest ih =>
    intro st
    obtain ⟨f, v⟩ := p
    by_cases hf : f = "name" ∨ f = "what"
    · simpa only [renderFields, if_pos hf] using ih st
    · cases hv : extraFieldText v with
      | error er => simp [renderFields, if_neg hf, hv, resState]
      | ok tv =>
        simp only [renderFields, if_neg hf, hv]
        simpa [emit] using ih (emit (emit (emit (emit st ("<TR>\n"))
          ("<TD ALIGN=\"LEFT\">" ++ f ++ "</TD>\n"))
          ("<TD ALIGN=\"LEFT\">" ++ tv ++ "</TD>\n")) ("</TR>\n"))

theorem renderFields_regE {e : Entry} {st : GState}
    {res : Except (PyErr × GState) GState} (h : renderFields st e = res) :
    (resState res).counter = st.counter ∧
    (resState res).nodes = st.nodes ∧
    (resState res).nodesByName = st.nodesByName ∧
    (resState res).allocs = st.allocs :=
  h ▸ renderFields_reg e st

theorem renderState_reg (st : GState) (e : Entry) :
    (resState (renderState st e)).counter = st.counter ∧
    (resState (renderState st e)).nodes = st.nodes ∧
    (resState (renderState st e)).nodesByName = st.nodesByName ∧
    (resState (renderState st e)).allocs = st.allocs := by
  simp only [renderState]
  split
  · simp [resState, emit]
  · split
    · rename_i heq
      obtain ⟨h1, h2, h3, h4⟩ := renderFields_regE heq
      exact ⟨h1, h2, h3, h4⟩
    · rename_i heq
      obtain ⟨h1, h2, h3, h4⟩ := renderFields_regE heq
      exact ⟨h1, h2, h3, h4⟩

theorem renderStates_reg : ∀ (l : List Entry) (st : GState),
    (resState (renderStates st l)).counter = st.counter ∧
    (resState (renderStates st l)).nodes = st.nodes ∧
    (resState (renderStates st l)).nodesByName = st.nodesByName ∧
    (resState (renderStates st l)).allocs = st.allocs := by
  intro l
  induction l with
  | nil => intro st; exact ⟨rfl, rfl, rfl, rfl⟩
  | cons e rest ih =>
    intro st
    simp only [renderStates]
    cases hs : renderState st e with
    | error er =>
      have h := renderState_reg st e
      rw [hs] at h
      simpa [resState] using h
    | ok st' =>
      have h := renderState_reg st e
      rw [hs] at h
      simp only [resState] at h
      have h2 := ih st'
      exact ⟨h2.1.trans h.1, h2.2.1.trans h.2.1, h2.2.2.1.trans h.2.2.1,
        h2.2.2.2.trans h.2.2.2⟩

theorem renderStates_regE {l : List Entry} {st : GState}
    {res : Except (PyErr × GState) GState} (h : renderStates st l = res) :
    (resState res).counter = st.counter ∧
    (resState res).nodes = st.nodes ∧
    (resState res).nodesByName = st.nodesByName ∧
    (resState res).allocs = st.allocs :=
  h ▸ renderStates_reg l st

/-! Behavior of `print_stack_node` on hits and on fresh states. -/

theorem psn_found {st : GState} {s : Stack} {id : Nat}
    (h : pyLookup (json_dumps s) st.nodes = some id) :
    print_stack_node st s = .ok (id, st) := by
  unfold print_stack_node
  simp [h]

theorem psn_fresh_reg {st : GState} {s : Stack}
    (h : pyLookup (json_dumps s) st.nodes = none) :
    (resStateN (print_stack_node st s)).counter = st.counter + 1 ∧
    (resStateN (print_stack_node st s)).nodes =
      st.nodes ++ [(json_dumps s, st.counter + 1)] ∧
    (resStateN (print_stack_node st s)).nodesByName = st.nodesByName ∧
    (resStateN (print_stack_node st s)).allocs = st.allocs ++ [st.counter + 1] := by
  cases s with
  | none =>
    unfold print_stack_node
    simp only [h]
    exact ⟨rfl, rfl, rfl, rfl⟩
  | some states =>
    unfold print_stack_node
    simp only [h]
    split
    · rename_i heq
      obtain ⟨h1, h2, h3, h4⟩ := renderStates_regE heq
      exact ⟨h1, h2, h3, h4⟩
    · rename_i heq
      obtain ⟨h1, h2, h3, h4⟩ := renderStates_regE heq
      refine ⟨?_, ?_, ?_, ?_⟩
      · show (emits _ _).counter = _
        rw [emits_counter]
        exact h1
      · show (emits _ _).nodes = _
        rw [emits_nodes]
        exact h2
      · show (emits _ _).nodesByName = _
        rw [emits_nbn]
        exact h3
      · show (emits _ _).allocs = _
        rw [emits_allocs]
        exact h4

theorem psn_ok_id {st : GState} {s : Stack} {id : Nat} {st' : GState}
    (h : pyLookup (json_dumps s) st.nodes = none)
    (hok : print_stack_node st s = .ok (id, st')) : id = st.counter + 1 := by
  cases s with
  | none =>
    unfold print_stack_node at hok
    simp only [h] at hok
    simp only [Except.ok.injEq, Prod.mk.injEq] at hok
    exact hok.1.symm
  | some states =>
    unfold print_stack_node at hok
    simp only [h] at hok
    revert hok
    split
    · intro hok
      exact Except.noConfusion hok
    · intro hok
      simp only [Except.ok.injEq, Prod.mk.injEq] at hok
      exact hok.1.symm

theorem psn_ok_res {st : GState} {s : Stack} {id : Nat} {st' : GState}
    (hok : print_stack_node st s = .ok (id, st')) :
    resStateN (print_stack_node st s) = st' := by
  rw [hok]
  rfl

theorem psn_key_mem {st : GState} {s : Stack} {id : Nat} {st' : GState}
    (hok : print_stack_node st s = .ok (id, st')) :
    (json_dumps s, id) ∈ st'.nodes := by
  cases hk : pyLookup (json_dumps s) st.nodes with
  | some i =>
    rw [psn_found hk] at hok
    cases hok
    exact pyLookup_mem hk
  | none =>
    have hid := psn_ok_id hk hok
    have hr := (psn_fresh_reg hk).2.1
    rw [psn_ok_res hok] at hr
    rw [hr, hid]
    exact List.mem_append_right _ (List.mem_singleton.mpr rfl)

/-! Behavior of `print_operations_node` on a present operation list. -/

theorem ponode_some_fst (st : GState) (ops : List (String × String)) :
    (print_operations_node st (some ops)).1 = some (st.counter + 1) := by
  simp [print_operations_node]

theorem ponode_some_counter (st : GState) (ops : List (String × String)) :
    ((print_operations_node st (some ops)).2).counter = st.counter + 1 := by
  simp only [print_operations_node, emits_counter, emit_counter, foldl_emit_counter]

theorem ponode_some_nodes (st : GState) (ops : List (String × String)) :
    ((print_operations_node st (some ops)).2).nodes = st.nodes := by
  simp only [print_operations_node, emits_nodes, emit_nodes, foldl_emit_nodes]

theorem ponode_some_nbn (st : GState) (ops : List (String × String)) :
    ((print_operations_node st (some ops)).2).nodesByName = st.nodesByName := by
  simp only [print_operations_node, emits_nbn, emit_nbn, foldl_emit_nbn]

theorem ponode_some_allocs (st : GState) (ops : List (String × String)) :
    ((print_operations_node st (some ops)).2).allocs =
      st.allocs ++ [st.counter + 1] := by
  simp only [print_operations_node, emits_allocs, emit_allocs, foldl_emit_allocs]

theorem ponode_some_out (st : GState) (ops : List (String × String)) :
    ((print_operations_node st (some ops)).2).out =
      st.out ++
        [("N" ++ toString (st.counter + 1) ++ " [ shape = plain, label=<"),
         ("<FONT FACE=\"Courier\">\n")] ++
        ops.map (fun op => op.1 ++ " ") ++ [("<br/> ")] ++
        ops.map (fun op => ("<br/>" ++ op.2)) ++
        [("</FONT>\n"), ("> ];\n")] := by
  simp only [print_operations_node, emits_out, foldl_emit_out, emit_out]
  simp [emit, List.append_assoc]

/-! The ghost allocation-trace invariant holds through the whole run. -/

theorem psn_InvA (s : Stack) {st : GState} (h : InvA st) :
    InvA (resStateN (print_stack_node st s)) := by
  cases hk : pyLookup (json_dumps s) st.nodes with
  | some id => simpa [psn_found hk, resStateN] using h
  | none =>
    obtain ⟨hc, _, _, ha⟩ := psn_fresh_reg hk
    unfold InvA at h ⊢
    rw [hc, ha, h, List.range'_concat]
    simp [Nat.add_comm]

theorem ponode_InvA (st : GState) (ops : Option (List (String × String)))
    (h : InvA st) : InvA (print_operations_node st ops).2 := by
  cases ops with
  | none => exact h
  | some l =>
    unfold InvA at h ⊢
    rw [ponode_some_counter, ponode_some_allocs, h, List.range'_concat]
    simp [Nat.add_comm]

theorem print_edge_InvA {st : GState} {f t : Nat} {n : Option String}
    (h : InvA st) : InvA (print_edge st f t n) := by
  unfold print_edge
  split
  · exact h
  · split
    · exact h
    · exact h

theorem print_rule_InvA (types : Types) {st : GState} (name : String) (r : Rule)
    (h : InvA st) : InvA (resState (print_rule types st name r)) := by
  simp only [print_rule]
  split
  · rename_i e h1
    have h' := psn_InvA r.fromStack h
    rw [h1] at h'
    exact h'
  · rename_i fnode st1 h1
    have hst1 : InvA st1 := by
      have h' := psn_InvA r.fromStack h
      rw [h1] at h'
      exact h'
    split
    · rename_i e h2
      have h' := psn_InvA r.toStack hst1
      rw [h2] at h'
      exact h'
    · rename_i tnode st2 h2
      have hst2 : InvA st2 := by
        have h' := psn_InvA r.toStack hst1
        rw [h2] at h'
        exact h'
      split
      · exact hst2
      · rename_i operations hby
        split
        · rename_i st4 hpo
          have h4 := ponode_InvA
            ({ st2 with nodesByName := st2.nodesByName ++ [(name, (fnode, tnode))] })
            operations hst2
          rw [hpo] at h4
          have h4' : InvA st4 := h4
          show InvA (print_edge st4 fnode tnode none)
          exact print_edge_InvA h4'
        · rename_i opn st4 hpo
          have h4 := ponode_InvA
            ({ st2 with nodesByName := st2.nodesByName ++ [(name, (fnode, tnode))] })
            operations hst2
          rw [hpo] at h4
          have h4' : InvA st4 := h4
          show InvA (print_edge (print_edge st4 fnode opn (some name)) opn tnode (some ("")))
          exact print_edge_InvA (print_edge_InvA h4')

theorem connect_nexts_InvA {node_to : Nat} :
    ∀ {nexts : List String} {st : GState}, InvA st →
      InvA (resState (connect_nexts node_to st nexts)) := by
  intro nexts
  induction nexts with
  | nil => intro st h; exact h
  | cons nxt rest ih =>
    intro st h
    unfold connect_nexts
    cases pyLookup nxt st.nodesByName with
    | none => exact h
    | some p => exact ih (print_edge_InvA h)

theorem connect_node_InvA {st : GState} (name : String) (nexts : List String)
    (h : InvA st) : InvA (resState (connect_node st name nexts)) := by
  unfold connect_node
  cases pyLookup name st.nodesByName with
  | none => exact h
  | some ft => exact connect_nexts_InvA h

theorem rulesPass_InvA (types : Types) :
    ∀ (rules : List (String × Rule)) {st : GState}, InvA st →
      InvA (resState (rulesPass types st rules)) := by
  intro rules
  induction rules with
  | nil => intro st h; exact h
  | cons p rest ih =>
    obtain ⟨name, r⟩ := p
    intro st h
    unfold rulesPass
    cases hp : print_rule types st name r with
    | error e =>
      have h' := print_rule_InvA types name r h
      rw [hp] at h'
      exact h'
    | ok st' =>
      have h' := print_rule_InvA types name r h
      rw [hp] at h'
      exact ih h'

theorem linkPass_InvA :
    ∀ (rules : List (String × Rule)) {st : GState}, InvA st →
      InvA (resState (linkPass st rules)) := by
  intro rules
  induction rules with
  | nil => intro st h; exact h
  | cons p rest ih =>
    obtain ⟨name, r⟩ := p
    intro st h
    unfold linkPass
    cases hc : connect_node st name (r.nexts.getD []) with
    | error e =>
      have h' := connect_node_InvA name (r.nexts.getD []) h
      rw [hc] at h'
      exact h'
    | ok st' =>
      have h' := connect_node_InvA name (r.nexts.getD []) h
      rw [hc] at h'
      exact ih h'

theorem print_graph_InvA (d : Doc) : InvA (resState (print_graph d)) := by
  have h0 : InvA (emits init_state preamble) := by
    unfold InvA
    rw [emits_allocs, emits_counter]
    rfl
  simp only [print_graph]
  split
  · rename_i e hr
    have h' := rulesPass_InvA d.types d.rules h0
    rw [hr] at h'
    exact h'
  · rename_i st1 hr
    have h1 : InvA st1 := by
      have h' := rulesPass_InvA d.types d.rules h0
      rw [hr] at h'
      exact h'
    split
    · rename_i e hl
      have h' := linkPass_InvA d.rules h1
      rw [hl] at h'
      exact h'
    · rename_i st2 hl
      have h' := linkPass_InvA d.rules h1
      rw [hl] at h'
      exact h'

/-- C7: over any run, the sequence of node identities allocated by the
stack-state registry and the operation renderer together (the ghost trace
`allocs`) is strictly increasing, and no identity is ever repeated. -/
theorem spec2proof_C7_alloc_monotone (d : Doc) :
    ((resState (print_graph d)).allocs).Pairwise (· < ·) ∧
      ((resState (print_graph d)).allocs).Nodup := by
  have h := print_graph_InvA d
  unfold InvA at h
  rw [h]
  exact ⟨List.pairwise_lt_range' _ _, List.nodup_range' _ _⟩

/-! Edge statements: the three renderings are pairwise distinct. -/

theorem dashed_ne_solid (f t : Nat) : dashedE f t ≠ solidE f t := by
  unfold dashedE solidE
  intro h
  have h2 := congrArg String.data h
  simp only [String.data_append] at h2
  have h3 := List.append_cancel_left h2
  exact absurd h3 (by decide)

theorem label_ne_solid (f t : Nat) (s : String) : labelE f t s ≠ solidE f t := by
  unfold labelE solidE
  intro h
  have h2 := congrArg String.data h
  simp only [String.data_append, List.append_assoc] at h2
  have h3 := List.append_cancel_left h2
  have hl := congrArg List.length h3
  have e1 : (" [ label = \"  ").data.length = 14 := rfl
  have e2 : ("\" ];\n").data.length = 5 := rfl
  have e3 : (";\n").data.length = 2 := rfl
  simp only [List.length_append, e1, e2, e3] at hl
  omega

theorem label_ne_dashed (f t : Nat) (s : String) : labelE f t s ≠ dashedE f t := by
  unfold labelE dashedE
  intro h
  have h2 := congrArg String.data h
  simp only [String.data_append, List.append_assoc] at h2
  have h3 := List.append_cancel_left h2
  simp at h3

/-- C2: every emitted edge gets exactly one of three renderings: no label
gives a dashed arrow, the empty-string label a solid unlabeled arrow, and
a non-empty label a solid arrow annotated with the label text preceded by
leading spaces; the three renderings are mutually exclusive. -/
theorem spec2proof_C2_edge_trichotomy (st : GState) (f t : Nat) (lbl : Option String) :
    ∃ piece,
      (print_edge st f t lbl).out = st.out ++ [piece] ∧
      ((lbl = none ∧ piece = dashedE f t ∧ piece ≠ solidE f t ∧
          ∀ s, piece ≠ labelE f t s) ∨
       (lbl = some ("") ∧ piece = solidE f t ∧ piece ≠ dashedE f t ∧
          ∀ s, piece ≠ labelE f t s) ∨
       (∃ s, lbl = some s ∧ s ≠ "" ∧ piece = labelE f t s ∧
          piece ≠ dashedE f t ∧ piece ≠ solidE f t)) := by
  cases lbl with
  | none =>
    refine ⟨dashedE f t, rfl, Or.inl ⟨rfl, rfl, dashed_ne_solid f t, ?_⟩⟩
    intro s
    exact (label_ne_dashed f t s).symm
  | some s =>
    by_cases hs : s = ""
    · subst hs
      refine ⟨solidE f t, rfl, Or.inr (Or.inl ⟨rfl, rfl, (dashed_ne_solid f t).symm, ?_⟩)⟩
      intro s'
      exact (label_ne_solid f t s').symm
    · refine ⟨labelE f t s, ?_, Or.inr (Or.inr ⟨s, rfl, hs, rfl,
        label_ne_dashed f t s, label_ne_solid f t s⟩)⟩
      simp [print_edge, hs, emit]

/-- C6: every call of the operation renderer with a present operation list
allocates a fresh identity (the successor of the current counter) and
returns it; two successive calls, even with identical operation lists,
return distinct identities. -/
theorem spec2proof_C6_ops_fresh (st : GState) (ops1 ops2 : List (String × String))
    (id1 id2 : Nat) (st1 st2 : GState)
    (h1 : print_operations_node st (some ops1) = (some id1, st1))
    (h2 : print_operations_node st1 (some ops2) = (some id2, st2)) :
    id1 = st.counter + 1 ∧ id2 = st.counter + 2 ∧ id1 ≠ id2 := by
  have f1 := ponode_some_fst st ops1
  rw [h1] at f1
  simp only [Option.some.injEq] at f1
  have c1 := ponode_some_counter st ops1
  rw [h1] at c1
  have f2 := ponode_some_fst st1 ops2
  rw [h2] at f2
  simp only [Option.some.injEq] at f2
  refine ⟨f1, ?_, ?_⟩
  · rw [f2, c1]
  · rw [f1, f2, c1]
    omega

/-- C6 witness: from the initial state, two identical one-element
operation lists receive the distinct identities 1 and 2. -/
theorem spec2proof_C6_witness :
    (1 : Nat) = init_state.counter + 1 ∧ (2 : Nat) = init_state.counter + 2 ∧
      (1 : Nat) ≠ 2 :=
  spec2proof_C6_ops_fresh init_state [(("|"), ("pipe"))] [(("|"), ("pipe"))] 1 2
    ((print_operations_node init_state (some [(("|"), ("pipe"))])).2)
    ((print_operations_node
        ((print_operations_node init_state (some [(("|"), ("pipe"))])).2)
        (some [(("|"), ("pipe"))])).2)
    rfl rfl

/-- C3 counterexample: a rule whose mapping has no `by` key does not
succeed — `rule["by"]` raises `KeyError`, so processing the rule aborts
and no direct edge is emitted. -/
theorem spec2proof_C3_counterexample :
    isOkR (print_rule [] init_state ("start")
      { fromStack := none, toStack := none, by_ := none, nexts := none }) = false ∧
    errOf (print_rule [] init_state ("start")
      { fromStack := none, toStack := none, by_ := none, nexts := none }) =
      some (.keyError ("by")) := by
  exact ⟨rfl, rfl⟩

/-- C3 (amended): a rule whose `by` key is present and maps to the
explicit null marker is processed successfully: the operation renderer
returns no node and exactly one dashed unlabeled edge from the rule's
from-node to its to-node is emitted; a rule whose `by` key is absent
instead aborts with `KeyError` after recording the rule's entry/exit
nodes, emitting no edge. -/
theorem spec2proof_C3_amended (types : Types) (st : GState) (name : String)
    (r : Rule) (f t : Nat) (st1 st2 : GState)
    (h1 : print_stack_node st r.fromStack = .ok (f, st1))
    (h2 : print_stack_node st1 r.toStack = .ok (t, st2)) :
    (r.by_ = some none →
      print_rule types st name r =
        .ok { st2 with
          nodesByName := st2.nodesByName ++ [(name, (f, t))]
          out := st2.out ++ [dashedE f t] }) ∧
    (r.by_ = none →
      print_rule types st name r =
        .error (.keyError ("by"),
          { st2 with nodesByName := st2.nodesByName ++ [(name, (f, t))] })) := by
  constructor
  · intro hb
    simp only [print_rule, h1, h2, hb, print_operations_node, print_edge]
    rfl
  · intro hb
    simp only [print_rule, h1, h2, hb]

/-- C3 witness: with both stacks the empty marker, a null `by` processes
successfully and an absent `by` raises `KeyError`. -/
theorem spec2proof_C3_witness :
    isOkR (print_rule [] init_state ("start")
      { fromStack := none, toStack := none, by_ := some none, nexts := none }) = true ∧
    errOf (print_rule [] init_state ("start")
      { fromStack := none, toStack := none, by_ := none, nexts := none }) =
      some (.keyError ("by")) := by
  constructor
  · have h := (spec2proof_C3_amended [] init_state ("start")
      { fromStack := none, toStack := none, by_ := some none, nexts := none } 1 1
      (resStateN (print_stack_node init_state none))
      (resStateN (print_stack_node (resStateN (print_stack_node init_state none)) none))
      rfl rfl).1 rfl
    rw [h]
    rfl
  · have h := (spec2proof_C3_amended [] init_state ("start")
      { fromStack := none, toStack := none, by_ := none, nexts := none } 1 1
      (resStateN (print_stack_node init_state none))
      (resStateN (print_stack_node (resStateN (print_stack_node init_state none)) none))
      rfl rfl).2 rfl
    rw [h]
    rfl

/-- C10: a present-but-empty operation list (as opposed to the null
marker) still allocates a fresh operation node, rendered with an empty
symbol line and no description lines, and the rule emits the labeled
from-to-operation edge followed by the empty-labeled operation-to-to
edge — not a single direct edge; the null marker alone produces the
single direct (dashed) edge. -/
theorem spec2proof_C10_empty_ops (types : Types) (st : GState) (name : String)
    (r : Rule) (f t : Nat) (st1 st2 : GState)
    (hname : name ≠ "")
    (h1 : print_stack_node st r.fromStack = .ok (f, st1))
    (h2 : print_stack_node st1 r.toStack = .ok (t, st2)) :
    (r.by_ = some (some []) →
      print_rule types st name r =
        .ok { st2 with
          nodesByName := st2.nodesByName ++ [(name, (f, t))]
          counter := st2.counter + 1
          allocs := st2.allocs ++ [st2.counter + 1]
          out := st2.out ++
            [("N" ++ toString (st2.counter + 1) ++ " [ shape = plain, label=<"),
             ("<FONT FACE=\"Courier\">\n"), ("<br/> "), ("</FONT>\n"), ("> ];\n"),
             labelE f (st2.counter + 1) name, solidE (st2.counter + 1) t] }) ∧
    (r.by_ = some none →
      print_rule types st name r =
        .ok { st2 with
          nodesByName := st2.nodesByName ++ [(name, (f, t))]
          out := st2.out ++ [dashedE f t] }) := by
  constructor
  · intro hb
    simp only [print_rule, h1, h2, hb, print_operations_node, print_edge, emits,
      List.foldl_nil, List.foldl_cons, emit]
    simp [labelE, solidE, edgeStem, hname, List.append_assoc]
  · intro hb
    simp only [print_rule, h1, h2, hb, print_operations_node, print_edge]
    rfl

/-- C10 witness: a rule with an empty `by` list succeeds and emits the
operation-node pieces and the two edges. -/
theorem spec2proof_C10_witness :
    isOkR (print_rule [] init_state ("start")
      { fromStack := none, toStack := none, by_ := some (some []), nexts := none }) = true ∧
    isOkR (print_rule [] init_state ("start")
      { fromStack := none, toStack := none, by_ := some none, nexts := none }) = true := by
  constructor
  · have h := (spec2proof_C10_empty_ops [] init_state ("start")
      { fromStack := none, toStack := none, by_ := some (some []), nexts := none } 1 1
      (resStateN (print_stack_node init_state none))
      (resStateN (print_stack_node (resStateN (print_stack_node init_state none)) none))
      (by decide) rfl rfl).1 rfl
    rw [h]
    rfl
  · have h := (spec2proof_C10_empty_ops [] init_state ("start")
      { fromStack := none, toStack := none, by_ := some none, nexts := none } 1 1
      (resStateN (print_stack_node init_state none))
      (resStateN (print_stack_node (resStateN (print_stack_node init_state none)) none))
      (by decide) rfl rfl).2 rfl
    rw [h]
    rfl

/-! Output extension and row membership for the extra-field loop. -/

theorem renderFields_out_ext : ∀ (e : Entry) (st : GState),
    ∃ tail, (resState (renderFields st e)).out = st.out ++ tail := by
  intro e
  induction e with
  | nil => intro st; exact ⟨[], by simp [renderFields, resState]⟩
  | cons p rest ih =>
    intro st
    obtain ⟨f, v⟩ := p
    by_cases hf : f = "name" ∨ f = "what"
    · simpa only [renderFields, if_pos hf] using ih st
    · cases hv : extraFieldText v with
      | error er =>
        refine ⟨[], ?_⟩
        simp [renderFields, if_neg hf, hv, resState]
      | ok tv =>
        obtain ⟨tail, htail⟩ := ih (emit (emit (emit (emit st ("<TR>\n"))
          ("<TD ALIGN=\"LEFT\">" ++ f ++ "</TD>\n"))
          ("<TD ALIGN=\"LEFT\">" ++ tv ++ "</TD>\n")) ("</TR>\n"))
        refine ⟨("<TR>\n") :: ("<TD ALIGN=\"LEFT\">" ++ f ++ "</TD>\n") ::
          ("<TD ALIGN=\"LEFT\">" ++ tv ++ "</TD>\n") :: ("</TR>\n") :: tail, ?_⟩
        simp only [renderFields, if_neg hf, hv]
        rw [htail]
        simp [emit, List.append_assoc]

theorem renderFields_out_extE {e : Entry} {st : GState}
    {res : Except (PyErr × GState) GState} (h : renderFields st e = res) :
    ∃ tail, (resState res).out = st.out ++ tail :=
  h ▸ renderFields_out_ext e st

theorem renderFields_row_mem : ∀ (e : Entry) (st st' : GState),
    renderFields st e = .ok st' → ∀ p ∈ e, p.1 ≠ "name" → p.1 ≠ "what" →
      ("<TD ALIGN=\"LEFT\">" ++ p.1 ++ "</TD>\n") ∈ st'.out := by
  intro e
  induction e with
  | nil =>
    intro st st' h p hp
    simp at hp
  | cons q rest ih =>
    intro st st' h p hp hn hw
    obtain ⟨f, v⟩ := q
    by_cases hf : f = "name" ∨ f = "what"
    · simp only [renderFields, if_pos hf] at h
      rcases List.mem_cons.mp hp with heq | htail
      · subst heq
        simp only at hn hw
        rcases hf with hf | hf
        · exact absurd hf hn
        · exact absurd hf hw
      · exact ih st st' h p htail hn hw
    · simp only [renderFields, if_neg hf] at h
      cases hv : extraFieldText v with
      | error er =>
        simp [hv] at h
      | ok tv =>
        simp only [hv] at h
        rcases List.mem_cons.mp hp with heq | htail2
        · subst heq
          obtain ⟨tail, htail⟩ := renderFields_out_extE h
          simp only [resState] at htail
          rw [htail]
          simp [emit]
        · exact ih _ st' h p htail2 hn hw

/-- Unfolding of `renderState` on an entry whose `name` is the literal
`rest`: the `what` cell is rendered as `"..."`, and the extra-field loop
still runs on the entry. -/
theorem renderState_rest_eq (st : GState) (e : Entry)
    (hname : pyLookup ("name") e = some (FieldVal.vstr ("rest"))) :
    renderState st e =
      match renderFields (emits st
        [("<TR><TD><TABLE CELLSPACING=\"0\">\n"), ("<TR>\n"),
         ("<TD ALIGN=\"LEFT\"><B>rest</B></TD>\n"),
         ("<TD ALIGN=\"LEFT\"><B>...</B></TD>\n"), ("</TR>\n")]) e with
      | .error er => .error er
      | .ok st6 => .ok (emit st6 ("</TABLE></TD></TR>\n")) := by
  simp only [renderState, hname]
  simp [emits, emit, pyStr]

/-- C9 counterexample: for a `rest` entry carrying an extra field, the
extra field row is still emitted — normal field rendering is not
suppressed. -/
theorem spec2proof_C9_counterexample :
    isOkR (print_stack_node init_state
      (some [[(("name"), FieldVal.vstr ("rest")), (("doc"), FieldVal.vstr ("xy"))]])) =
        true ∧
    ("<TD ALIGN=\"LEFT\">doc</TD>\n") ∈
      (resStateN (print_stack_node init_state
        (some [[(("name"), FieldVal.vstr ("rest")), (("doc"), FieldVal.vstr ("xy"))]]))).out := by
  exact ⟨rfl, by decide⟩

/-- C9 (amended): for every stack entry whose `name` field is the literal
`rest`, the rendered label row shows `"..."` in place of the entry's
`what` value; the entry's extra (non-`name`/`what`) fields are however
still rendered, one row each — they are not suppressed. -/
theorem spec2proof_C9_rest_rows (st : GState) (e : Entry) (st' : GState)
    (hname : pyLookup ("name") e = some (FieldVal.vstr ("rest")))
    (hok : renderState st e = .ok st') :
    ("<TD ALIGN=\"LEFT\"><B>...</B></TD>\n") ∈ st'.out ∧
    ∀ p ∈ e, p.1 ≠ "name" → p.1 ≠ "what" →
      ("<TD ALIGN=\"LEFT\">" ++ p.1 ++ "</TD>\n") ∈ st'.out := by
  rw [renderState_rest_eq st e hname] at hok
  split at hok
  · exact Except.noConfusion hok
  · rename_i st6 hrf
    have hst' : st' = emit st6 ("</TABLE></TD></TR>\n") := by
      cases hok
      rfl
    obtain ⟨tail, htail⟩ := renderFields_out_extE hrf
    simp only [resState] at htail
    constructor
    · rw [hst', emit_out, htail, emits_out]
      simp
    · intro p hp hn hw
      have hm := renderFields_row_mem e _ st6 hrf p hp hn hw
      rw [hst', emit_out]
      exact List.mem_append_left _ hm

/-- C9 witness: the `rest` entry with one extra field shows the `"..."`
cell and still gets its extra field row. -/
theorem spec2proof_C9_witness :
    pyLookup ("name")
      [(("name"), FieldVal.vstr ("rest")), (("doc"), FieldVal.vstr ("xy"))] =
        some (FieldVal.vstr ("rest")) ∧
    (("<TD ALIGN=\"LEFT\"><B>...</B></TD>\n") ∈
      (resState (renderState init_state
        [(("name"), FieldVal.vstr ("rest")), (("doc"), FieldVal.vstr ("xy"))])).out ∧
     ∀ p ∈ [(("name"), FieldVal.vstr ("rest")), (("doc"), FieldVal.vstr ("xy"))],
       p.1 ≠ "name" → p.1 ≠ "what" →
       ("<TD ALIGN=\"LEFT\">" ++ p.1 ++ "</TD>\n") ∈
         (resState (renderState init_state
           [(("name"), FieldVal.vstr ("rest")), (("doc"), FieldVal.vstr ("xy"))])).out) :=
  ⟨rfl, spec2proof_C9_rest_rows init_state
    [(("name"), FieldVal.vstr ("rest")), (("doc"), FieldVal.vstr ("xy"))]
    (resState (renderState init_state
      [(("name"), FieldVal.vstr ("rest")), (("doc"), FieldVal.vstr ("xy"))]))
    rfl rfl⟩

/-! No piece printed by any emitting function is the closing terminator. -/

theorem ne_footer_of_head {s : String} {c : Char}
    (h : s.data.head? = some c) (hc : c ≠ '\x7d') : s ≠ footerPiece := by
  intro he
  subst he
  have : c = '\x7d' := by
    have h2 : some '\x7d' = some c := h.symm ▸ rfl
    simpa using h2.symm
  exact hc this

theorem ne_footer_of_last {s : String} {c : Char}
    (h : s.data.getLast? = some c) (hc : c ≠ '\n') : s ≠ footerPiece := by
  intro he
  subst he
  have : c = '\n' := by
    have h2 : some '\n' = some c := h.symm ▸ rfl
    simpa using h2.symm
  exact hc this

theorem ne_footer_append {a : String} (b : String) {c : Char}
    (ha : a.data.head? = some c) (hc : c ≠ '\x7d') : (a ++ b) ≠ footerPiece := by
  apply ne_footer_of_head (c := c) _ hc
  rw [String.data_append]
  cases hd : a.data with
  | nil => rw [hd] at ha; exact Option.noConfusion ha
  | cons x t =>
    rw [hd] at ha
    simp only [List.head?_cons, Option.some.injEq] at ha
    subst ha
    rfl

theorem ne_footer_space (a : String) : (a ++ " ") ≠ footerPiece := by
  apply ne_footer_of_last (c := ' ') _ (by decide)
  rw [String.data_append]
  exact List.getLast?_concat _

theorem nf_emit {st : GState} {p : String} (h : NoFooter st) (hp : p ≠ footerPiece) :
    NoFooter (emit st p) := by
  intro q hq
  rw [emit_out] at hq
  rcases List.mem_append.mp hq with hq | hq
  · exact h q hq
  · rw [List.mem_singleton.mp hq]
    exact hp

theorem nf_foldl_emit {α : Type} (f : α → String) (hf : ∀ a, f a ≠ footerPiece) :
    ∀ (l : List α) (st : GState), NoFooter st →
      NoFooter (List.foldl (fun s a => emit s (f a)) st l) := by
  intro l
  induction l with
  | nil => intro st h; exact h
  | cons a l ih => intro st h; exact ih _ (nf_emit h (hf a))

theorem nf_renderFields : ∀ (e : Entry) (st : GState), NoFooter st →
    NoFooter (resState (renderFields st e)) := by
  intro e
  induction e with
  | nil => intro st h; exact h
  | cons p rest ih =>
    intro st h
    obtain ⟨f, v⟩ := p
    by_cases hf : f = "name" ∨ f = "what"
    · simpa only [renderFields, if_pos hf] using ih st h
    · cases hv : extraFieldText v with
      | error er =>
        simp only [renderFields, if_neg hf, hv]
        exact h
      | ok tv =>
        simp only [renderFields, if_neg hf, hv]
        refine ih _ (nf_emit (nf_emit (nf_emit (nf_emit h (by decide)) ?_) ?_)
          (by decide))
        · exact ne_footer_append _ (c := '<') rfl (by decide)
        · exact ne_footer_append _ (c := '<') rfl (by decide)

theorem nf_renderFieldsE {e : Entry} {st : GState}
    {res : Except (PyErr × GState) GState} (heq : renderFields st e = res)
    (h : NoFooter st) : NoFooter (resState res) :=
  heq ▸ nf_renderFields e st h

theorem nf_renderState (st : GState) (e : Entry) (h : NoFooter st) :
    NoFooter (resState (renderState st e)) := by
  simp only [renderState]
  split
  · exact nf_emit (nf_emit h (by decide)) (by decide)
  · split
    · rename_i heq
      refine nf_renderFieldsE heq
        (nf_emit (nf_emit (nf_emit (nf_emit (nf_emit h (by decide)) (by decide)) ?_) ?_)
          (by decide))
      · exact ne_footer_append _ (c := '<') rfl (by decide)
      · exact ne_footer_append _ (c := '<') rfl (by decide)
    · rename_i heq
      refine nf_emit (nf_renderFieldsE heq
        (nf_emit (nf_emit (nf_emit (nf_emit (nf_emit h (by decide)) (by decide)) ?_) ?_)
          (by decide))) (by decide)
      · exact ne_footer_append _ (c := '<') rfl (by decide)
      · exact ne_footer_append _ (c := '<') rfl (by decide)

theorem nf_renderStateE {st : GState} {e : Entry}
    {res : Except (PyErr × GState) GState} (heq : renderState st e = res)
    (h : NoFooter st) : NoFooter (resState res) :=
  heq ▸ nf_renderState st e h

theorem nf_renderStates : ∀ (l : List Entry) (st : GState), NoFooter st →
    NoFooter (resState (renderStates st l)) := by
  intro l
  induction l with
  | nil => intro st h; exact h
  | cons e rest ih =>
    intro st h
    simp only [renderStates]
    cases hs : renderState st e with
    | error er => exact nf_renderStateE hs h
    | ok st' => exact ih st' (nf_renderStateE hs h)

theorem nf_renderStatesE {l : List Entry} {st : GState}
    {res : Except (PyErr × GState) GState} (heq : renderStates st l = res)
    (h : NoFooter st) : NoFooter (resState res) :=
  heq ▸ nf_renderStates l st h

theorem nf_psn (st : GState) (s : Stack) (h : NoFooter st) :
    NoFooter (resStateN (print_stack_node st s)) := by
  cases hk : pyLookup (json_dumps s) st.nodes with
  | some id =>
    rw [psn_found hk]
    exact h
  | none =>
    cases s with
    | none =>
      unfold print_stack_node
      simp only [hk]
      have hp1 : ("N" ++ toString (st.counter + 1) ++ " [ shape = point ]\n") ≠
          footerPiece := ne_footer_append _ (c := 'N') rfl (by decide)
      exact nf_emit h hp1
    | some states =>
      unfold print_stack_node
      simp only [hk]
      split
      · rename_i heq
        exact nf_renderStatesE heq
          (nf_emit (nf_emit h (ne_footer_append _ (c := 'N') rfl (by decide)))
            (by decide))
      · rename_i heq
        have h4 := nf_renderStatesE heq
          (nf_emit (nf_emit h (ne_footer_append _ (c := 'N') rfl (by decide)))
            (by decide))
        exact nf_emit (nf_emit h4 (by decide)) (by decide)

theorem nf_ponode (st : GState) (ops : Option (List (String × String)))
    (h : NoFooter st) : NoFooter (print_operations_node st ops).2 := by
  cases ops with
  | none => exact h
  | some l =>
    simp only [print_operations_node]
    have hp1 : ("N" ++ toString (st.counter + 1) ++ " [ shape = plain, label=<") ≠
        footerPiece :=
      ne_footer_append (a := ("N" ++ toString (st.counter + 1)))
        (" [ shape = plain, label=<") (c := 'N') rfl (by decide)
    have h1 : NoFooter (emit ({ st with counter := st.counter + 1, allocs := st.allocs ++ [st.counter + 1] }) ("N" ++ toString (st.counter + 1) ++ " [ shape = plain, label=<")) :=
      nf_emit h hp1
    have h2 := nf_emit h1 (show ("<FONT FACE=\"Courier\">\n") ≠ footerPiece by decide)
    have h3 := nf_foldl_emit (fun op => (op.1 ++ " "))
      (fun op => ne_footer_space op.1) l _ h2
    have h4 := nf_emit h3 (show ("<br/> ") ≠ footerPiece by decide)
    have h5 := nf_foldl_emit (fun op => ("<br/>" ++ op.2))
      (fun op => ne_footer_append (a := ("<br/>")) op.2 (c := '<') rfl (by decide))
      l _ h4
    have h6 := nf_emit h5 (show ("</FONT>\n") ≠ footerPiece by decide)
    exact nf_emit h6 (show ("> ];\n") ≠ footerPiece by decide)

theorem nf_print_edge (st : GState) (f t : Nat) (n : Option String)
    (h : NoFooter st) : NoFooter (print_edge st f t n) := by
  unfold print_edge
  split
  · exact nf_emit h (by
      unfold dashedE
      exact ne_footer_append _ (c := 'N') rfl (by decide))
  · split
    · exact nf_emit h (by
        unfold solidE
        exact ne_footer_append _ (c := 'N') rfl (by decide))
    · exact nf_emit h (by
        unfold labelE
        exact ne_footer_append _ (c := 'N') rfl (by decide))

theorem nf_print_rule (types : Types) {st : GState} (name : String) (r : Rule)
    (h : NoFooter st) : NoFooter (resState (print_rule types st name r)) := by
  simp only [print_rule]
  split
  · rename_i e h1
    have h' := nf_psn st r.fromStack h
    rw [h1] at h'
    exact h'
  · rename_i fnode st1 h1
    have hst1 : NoFooter st1 := by
      have h' := nf_psn st r.fromStack h
      rw [h1] at h'
      exact h'
    split
    · rename_i e h2
      have h' := nf_psn st1 r.toStack hst1
      rw [h2] at h'
      exact h'
    · rename_i tnode st2 h2
      have hst2 : NoFooter st2 := by
        have h' := nf_psn st1 r.toStack hst1
        rw [h2] at h'
        exact h'
      split
      · exact hst2
      · rename_i operations hby
        split
        · rename_i st4 hpo
          have h4 := nf_ponode
            { st2 with nodesByName := st2.nodesByName ++ [(name, (fnode, tnode))] }
            operations hst2
          rw [hpo] at h4
          have h4' : NoFooter st4 := h4
          show NoFooter (print_edge st4 fnode tnode none)
          exact nf_print_edge _ _ _ _ h4'
        · rename_i opn st4 hpo
          have h4 := nf_ponode
            { st2 with nodesByName := st2.nodesByName ++ [(name, (fnode, tnode))] }
            operations hst2
          rw [hpo] at h4
          have h4' : NoFooter st4 := h4
          show NoFooter (print_edge (print_edge st4 fnode opn (some name)) opn tnode
            (some ("")))
          exact nf_print_edge _ _ _ _ (nf_print_edge _ _ _ _ h4')

theorem nf_connect_nexts {node_to : Nat} :
    ∀ {nexts : List String} {st : GState}, NoFooter st →
      NoFooter (resState (connect_nexts node_to st nexts)) := by
  intro nexts
  induction nexts with
  | nil => intro st h; exact h
  | cons nxt rest ih =>
    intro st h
    unfold connect_nexts
    cases pyLookup nxt st.nodesByName with
    | none => exact h
    | some p => exact ih (nf_print_edge _ _ _ _ h)

theorem nf_connect_node {st : GState} (name : String) (nexts : List String)
    (h : NoFooter st) : NoFooter (resState (connect_node st name nexts)) := by
  unfold connect_node
  cases pyLookup name st.nodesByName with
  | none => exact h
  | some ft => exact nf_connect_nexts h

theorem nf_rulesPass (types : Types) :
    ∀ (rules : List (String × Rule)) {st : GState}, NoFooter st →
      NoFooter (resState (rulesPass types st rules)) := by
  intro rules
  induction rules with
  | nil => intro st h; exact h
  | cons p rest ih =>
    obtain ⟨name, r⟩ := p
    intro st h
    unfold rulesPass
    cases hp : print_rule types st name r with
    | error e =>
      have h' := nf_print_rule types name r h
      rw [hp] at h'
      exact h'
    | ok st' =>
      have h' := nf_print_rule types name r h
      rw [hp] at h'
      exact ih h'

theorem nf_linkPass :
    ∀ (rules : List (String × Rule)) {st : GState}, NoFooter st →
      NoFooter (resState (linkPass st rules)) := by
  intro rules
  induction rules with
  | nil => intro st h; exact h
  | cons p rest ih =>
    obtain ⟨name, r⟩ := p
    intro st h
    unfold linkPass
    cases hc : connect_node st name (r.nexts.getD []) with
    | error e =>
      have h' := nf_connect_node name (r.nexts.getD []) h
      rw [hc] at h'
      exact h'
    | ok st' =>
      have h' := nf_connect_node name (r.nexts.getD []) h
      rw [hc] at h'
      exact ih h'

/-! The linking pass fails on a dangling successor name. -/

theorem print_edge_nbn (st : GState) (f t : Nat) (n : Option String) :
    (print_edge st f t n).nodesByName = st.nodesByName := by
  unfold print_edge
  split
  · rfl
  · split
    · rfl
    · rfl

theorem psn_nbn (st : GState) (s : Stack) :
    (resStateN (print_stack_node st s)).nodesByName = st.nodesByName := by
  cases hk : pyLookup (json_dumps s) st.nodes with
  | some id =>
    rw [psn_found hk]
    rfl
  | none => exact (psn_fresh_reg hk).2.2.1

theorem ponode_nbn (st : GState) (ops : Option (List (String × String))) :
    ((print_operations_node st ops).2).nodesByName = st.nodesByName := by
  cases ops with
  | none => rfl
  | some l => exact ponode_some_nbn st l

theorem print_rule_ok_nbn {types : Types} {st : GState} {name : String} {r : Rule}
    {st' : GState} (h : print_rule types st name r = .ok st') :
    ∃ pq, st'.nodesByName = st.nodesByName ++ [(name, pq)] := by
  simp only [print_rule] at h
  split at h
  · exact Except.noConfusion h
  · rename_i fnode st1 h1
    split at h
    · exact Except.noConfusion h
    · rename_i tnode st2 h2
      have e1 : st1.nodesByName = st.nodesByName := by
        have hx := psn_nbn st r.fromStack
        rw [h1] at hx
        exact hx
      have e2 : st2.nodesByName = st1.nodesByName := by
        have hx := psn_nbn st1 r.toStack
        rw [h2] at hx
        exact hx
      split at h
      · exact Except.noConfusion h
      · rename_i operations hby
        split at h
        · rename_i st4 hpo
          have e4 : st4.nodesByName =
              st2.nodesByName ++ [(name, (fnode, tnode))] := by
            have hx := ponode_nbn
              ({ st2 with nodesByName := st2.nodesByName ++ [(name, (fnode, tnode))] })
              operations
            rw [hpo] at hx
            exact hx
          refine ⟨(fnode, tnode), ?_⟩
          cases h
          rw [print_edge_nbn, e4, e2, e1]
        · rename_i opn st4 hpo
          have e4 : st4.nodesByName =
              st2.nodesByName ++ [(name, (fnode, tnode))] := by
            have hx := ponode_nbn
              ({ st2 with nodesByName := st2.nodesByName ++ [(name, (fnode, tnode))] })
              operations
            rw [hpo] at hx
            exact hx
          refine ⟨(fnode, tnode), ?_⟩
          cases h
          rw [print_edge_nbn, print_edge_nbn, e4, e2, e1]

theorem rulesPass_names {types : Types} :
    ∀ {rules : List (String × Rule)} {st st' : GState},
      rulesPass types st rules = .ok st' →
      st'.nodesByName.map Prod.fst =
        st.nodesByName.map Prod.fst ++ rules.map Prod.fst := by
  intro rules
  induction rules with
  | nil =>
    intro st st' h
    cases h
    simp
  | cons p rest ih =>
    obtain ⟨name, r⟩ := p
    intro st st' h
    unfold rulesPass at h
    split at h
    · exact Except.noConfusion h
    · rename_i stm hpr
      obtain ⟨pq, hpq⟩ := print_rule_ok_nbn hpr
      rw [ih h, hpq]
      simp

theorem connect_nexts_nbn {node_to : Nat} :
    ∀ {nexts : List String} {st : GState},
      (resState (connect_nexts node_to st nexts)).nodesByName = st.nodesByName := by
  intro nexts
  induction nexts with
  | nil => intro st; rfl
  | cons nh rest ih =>
    intro st
    unfold connect_nexts
    cases pyLookup nh st.nodesByName with
    | none => rfl
    | some p =>
      rw [ih]
      exact print_edge_nbn st node_to p.1 none

theorem connect_node_nbn (st : GState) (name : String) (nexts : List String) :
    (resState (connect_node st name nexts)).nodesByName = st.nodesByName := by
  unfold connect_node
  cases pyLookup name st.nodesByName with
  | none => rfl
  | some ft => exact connect_nexts_nbn

theorem connect_node_ok_nbn {st : GState} {name : String} {nexts : List String}
    {st' : GState} (h : connect_node st name nexts = .ok st') :
    st'.nodesByName = st.nodesByName := by
  have hx := connect_node_nbn st name nexts
  rw [h] at hx
  exact hx

theorem connect_nexts_err {node_to : Nat} :
    ∀ {nexts : List String} {st : GState} {nxt : String}, nxt ∈ nexts →
      pyLookup nxt st.nodesByName = none →
      ∃ er, connect_nexts node_to st nexts = .error er := by
  intro nexts
  induction nexts with
  | nil =>
    intro st nxt h
    simp at h
  | cons nh rest ih =>
    intro st nxt hmem hlook
    unfold connect_nexts
    cases hk : pyLookup nh st.nodesByName with
    | none => exact ⟨(.keyError nh, st), rfl⟩
    | some p =>
      rcases List.mem_cons.mp hmem with heq | hrest
      · subst heq
        rw [hlook] at hk
        exact Option.noConfusion hk
      · apply ih hrest
        rw [print_edge_nbn]
        exact hlook

theorem connect_node_err {st : GState} (name : String) {nexts : List String}
    {nxt : String} (hmem : nxt ∈ nexts)
    (hlook : pyLookup nxt st.nodesByName = none) :
    ∃ er, connect_node st name nexts = .error er := by
  unfold connect_node
  cases hk : pyLookup name st.nodesByName with
  | none => exact ⟨(.keyError name, st), rfl⟩
  | some ft => exact connect_nexts_err hmem hlook

theorem connect_nexts_err_shape {node_to : Nat} :
    ∀ {nexts : List String} {st : GState} {er : PyErr × GState},
      connect_nexts node_to st nexts = .error er → ∃ m, er.1 = .keyError m := by
  intro nexts
  induction nexts with
  | nil =>
    intro st er h
    exact Except.noConfusion h
  | cons nh rest ih =>
    intro st er h
    unfold connect_nexts at h
    split at h
    · cases h
      exact ⟨nh, rfl⟩
    · exact ih h

theorem connect_node_err_shape {st : GState} {name : String} {nexts : List String}
    {er : PyErr × GState} (h : connect_node st name nexts = .error er) :
    ∃ m, er.1 = .keyError m := by
  unfold connect_node at h
  split at h
  · cases h
    exact ⟨name, rfl⟩
  · exact connect_nexts_err_shape h

theorem linkPass_err :
    ∀ {rules : List (String × Rule)} {st : GState} {n : String} {r : Rule}
      {nxt : String}, (n, r) ∈ rules → nxt ∈ r.nexts.getD [] →
      pyLookup nxt st.nodesByName = none →
      ∃ er, linkPass st rules = .error er := by
  intro rules
  induction rules with
  | nil =>
    intro st n r nxt h
    simp at h
  | cons p rest ih =>
    obtain ⟨n', r'⟩ := p
    intro st n r nxt hmem hnxt hlook
    unfold linkPass
    cases hc : connect_node st n' (r'.nexts.getD []) with
    | error e => exact ⟨e, by simp only [hc]⟩
    | ok st1 =>
      simp only [hc]
      rcases List.mem_cons.mp hmem with heq | hrest
      · have hn : n' = n ∧ r' = r := by
          cases heq
          exact ⟨rfl, rfl⟩
        obtain ⟨hn1, hn2⟩ := hn
        subst hn1
        subst hn2
        obtain ⟨er, her⟩ := connect_node_err n' hnxt hlook
        rw [her] at hc
        exact Except.noConfusion hc
      · apply ih hrest hnxt
        rw [connect_node_ok_nbn hc]
        exact hlook

theorem linkPass_err_shape :
    ∀ {rules : List (String × Rule)} {st : GState} {er : PyErr × GState},
      linkPass st rules = .error er → ∃ m, er.1 = .keyError m := by
  intro rules
  induction rules with
  | nil =>
    intro st er h
    exact Except.noConfusion h
  | cons p rest ih =>
    obtain ⟨n', r'⟩ := p
    intro st er h
    unfold linkPass at h
    split at h
    · rename_i e hc
      cases h
      exact connect_node_err_shape hc
    · exact ih h

/-- C4: a `next` entry naming a rule that is not defined in the rules
mapping makes the whole run abort with an error, the closing graph
terminator is never emitted, and whenever the rule pass itself succeeded
the abort is a `KeyError` raised during the linking pass. -/
theorem spec2proof_C4_dangling_next (d : Doc) (n : String) (r : Rule) (nxt : String)
    (hmem : (n, r) ∈ d.rules) (hnxt : nxt ∈ r.nexts.getD [])
    (hund : nxt ∉ d.rules.map Prod.fst) :
    ∃ er, print_graph d = .error er ∧ footerPiece ∉ er.2.out ∧
      (∀ stp, rulesPass d.types (emits init_state preamble) d.rules = .ok stp →
        ∃ m, er.1 = PyErr.keyError m) := by
  have h0 : NoFooter (emits init_state preamble) := by decide
  cases hr : rulesPass d.types (emits init_state preamble) d.rules with
  | error e =>
    refine ⟨e, ?_, ?_, ?_⟩
    · simp only [print_graph, hr]
    · have h' := nf_rulesPass d.types d.rules h0
      rw [hr] at h'
      intro hm
      exact h' _ hm rfl
    · intro stp hstp
      exact Except.noConfusion hstp
  | ok st1 =>
    have hnames : st1.nodesByName.map Prod.fst = d.rules.map Prod.fst := by
      have hx := rulesPass_names hr
      rw [emits_nbn] at hx
      simpa using hx
    have hlook : pyLookup nxt st1.nodesByName = none := by
      rw [pyLookup_none_iff, hnames]
      exact hund
    obtain ⟨er, her⟩ := linkPass_err hmem hnxt hlook
    refine ⟨er, ?_, ?_, ?_⟩
    · simp only [print_graph, hr, her]
    · have h1 : NoFooter st1 := by
        have h' := nf_rulesPass d.types d.rules h0
        rw [hr] at h'
        exact h'
      have h' := nf_linkPass d.rules h1
      rw [her] at h'
      intro hm
      exact h' _ hm rfl
    · intro stp hstp
      exact linkPass_err_shape her

/-- C4 witness: a one-rule document whose rule names an undefined
successor aborts without printing the terminator. -/
theorem spec2proof_C4_witness :
    ((("a"), ruleDangling) ∈ docDangling.rules) ∧
    (("b") ∈ ruleDangling.nexts.getD []) ∧
    (("b") ∉ docDangling.rules.map Prod.fst) ∧
    (∃ er, print_graph docDangling = .error er ∧ footerPiece ∉ er.2.out ∧
      (∀ stp, rulesPass docDangling.types (emits init_state preamble)
          docDangling.rules = .ok stp →
        ∃ m, er.1 = PyErr.keyError m)) :=
  ⟨by decide, by decide, by decide,
    spec2proof_C4_dangling_next docDangling ("a") ruleDangling ("b")
      (by decide) (by decide) (by decide)⟩

/-! Injectivity of the canonical serialization on canonical stacks. -/

theorem strmk_data (s : String) : String.mk s.data = s := by
  cases s
  rfl

theorem quote_not_mem {s : String} (h : PlainStr s) : '"' ∉ s.data := by
  intro hm
  exact (h _ hm).1 rfl

theorem escChar_plain {c : Char} (h : PlainChar c) : escChar c = [c] := by
  obtain ⟨h1, h2, h3, h4⟩ := h
  have hn : c ≠ '\n' := by intro he; subst he; exact absurd h3 (by decide)
  have ht : c ≠ '\t' := by intro he; subst he; exact absurd h3 (by decide)
  have hr : c ≠ '\r' := by intro he; subst he; exact absurd h3 (by decide)
  have hb : c ≠ '\x08' := by intro he; subst he; exact absurd h3 (by decide)
  have hf : c ≠ '\x0c' := by intro he; subst he; exact absurd h3 (by decide)
  have hu : ¬(c.toNat < 32 ∨ 127 ≤ c.toNat) := by
    intro hor
    rcases hor with hor | hor
    · omega
    · omega
  unfold escChar
  rw [if_neg h1, if_neg h2, if_neg hn, if_neg ht, if_neg hr, if_neg hb, if_neg hf,
    if_neg hu]

theorem foldr_escChar_plain : ∀ {l : List Char}, (∀ c ∈ l, PlainChar c) →
    l.foldr (fun c acc => escChar c ++ acc) [] = l := by
  intro l
  induction l with
  | nil => intro _; rfl
  | cons c cs ih =>
    intro h
    show escChar c ++ cs.foldr _ [] = c :: cs
    rw [escChar_plain (h c (List.mem_cons_self c cs)), ih (fun x hx => h x (List.mem_cons_of_mem _ hx))]
    rfl

theorem escapeJson_plain {s : String} (h : PlainStr s) : escapeJson s = s := by
  unfold escapeJson
  rw [foldr_escChar_plain h]

theorem jstr_plain_data {s : String} (h : PlainStr s) :
    (jstr s).data = '"' :: (s.data ++ ['"']) := by
  unfold jstr
  rw [escapeJson_plain h]
  simp [String.data_append]

theorem takeStr_rt : ∀ (l : List Char), '"' ∉ l → ∀ rest : List Char,
    takeStr (l ++ '"' :: rest) = some (l, rest) := by
  intro l
  induction l with
  | nil =>
    intro _ rest
    simp [takeStr]
  | cons c cs ih =>
    intro h rest
    have hc : c ≠ '"' := fun he => h (he ▸ List.mem_cons_self c cs)
    have hcs : '"' ∉ cs := fun hm => h (List.mem_cons_of_mem _ hm)
    show takeStr (c :: (cs ++ '"' :: rest)) = _
    unfold takeStr
    rw [if_neg hc, ih hcs rest]

theorem parseQStr_rt {s : String} (h : PlainStr s) (rest : List Char) :
    parseQStr ((jstr s).data ++ rest) = some (s.data, rest) := by
  rw [jstr_plain_data h]
  show parseQStr ('"' :: (s.data ++ ['"'] ++ rest)) = _
  unfold parseQStr
  rw [List.append_assoc]
  exact takeStr_rt s.data (quote_not_mem h) rest

/-- Character-list form of `strJoin`. -/
theorem strJoin_data (sep : String) : ∀ (parts : List String),
    (strJoin sep parts).data =
      match parts with
      | [] => []
      | [x] => x.data
      | x :: y :: xs => x.data ++ sep.data ++ (strJoin sep (y :: xs)).data := by
  intro parts
  match parts with
  | [] => rfl
  | [x] => rfl
  | x :: y :: xs => simp [strJoin, String.data_append]

theorem parseVal_null (fuel : Nat) (rest : List Char) :
    parseVal fuel ('n' :: 'u' :: 'l' :: 'l' :: rest) = some (.vnull, rest) := rfl

theorem parseVal_quote (fuel : Nat) (cs : List Char) :
    parseVal fuel ('"' :: cs) =
      match takeStr cs with
      | none => none
      | some (s, r) => some (.vstr (String.mk s), r) := rfl

theorem parseVal_bracket (fuel : Nat) (cs : List Char) :
    parseVal fuel ('[' :: cs) =
      match parseQStrList fuel cs with
      | none => none
      | some (ss, r) => some (.varr ss, r) := rfl

theorem parseSepQStrs_rt :
    ∀ (ss : List String), (∀ s ∈ ss, PlainStr s) → ss ≠ [] →
      ∀ (fuel : Nat), ss.length ≤ fuel → ∀ rest : List Char,
        parseSepQStrs fuel
            ((strJoin (", ") (ss.map jstr)).data ++ (']' :: rest)) =
          some (ss, rest) := by
  intro ss
  induction ss with
  | nil =>
    intro _ hne
    exact absurd rfl hne
  | cons s tl ih =>
    intro hp _ fuel hf rest
    cases fuel with
    | zero => simp at hf
    | succ f =>
      have hs : PlainStr s := hp s (List.mem_cons_self _ _)
      cases tl with
      | nil =>
        show parseSepQStrs (f + 1) ((jstr s).data ++ (']' :: rest)) = _
        unfold parseSepQStrs
        rw [parseQStr_rt hs]
        rfl
      | cons s2 tl2 =>
        have hjoin : (strJoin (", ") ((s :: s2 :: tl2).map jstr)).data =
            (jstr s).data ++ (',' :: ' ' ::
              (strJoin (", ") ((s2 :: tl2).map jstr)).data) := by
          show (strJoin (", ") (jstr s :: jstr s2 :: (tl2.map jstr))).data = _
          rw [strJoin_data]
          simp [String.data_append]
        rw [hjoin]
        unfold parseSepQStrs
        rw [List.append_assoc]
        rw [parseQStr_rt hs]
        have htl := ih (fun x hx => hp x (List.mem_cons_of_mem _ hx))
          (by simp) f (by simpa using Nat.le_of_succ_le_succ hf) rest
        show (match ((',' :: ' ' ::
            (strJoin (", ") ((s2 :: tl2).map jstr)).data) ++ (']' :: rest)) with
          | ']' :: r2 => some ([String.mk s.data], r2)
          | ',' :: ' ' :: r2 =>
            match parseSepQStrs f r2 with
            | none => none
            | some (ss2, r3) => some (String.mk s.data :: ss2, r3)
          | _ => none) = _
        show (match parseSepQStrs f
            ((strJoin (", ") ((s2 :: tl2).map jstr)).data ++ (']' :: rest)) with
          | none => none
          | some (ss2, r3) => some (String.mk s.data :: ss2, r3)) = _
        rw [htl]

theorem json_val_rt (v : FieldVal) (hc : ValCanon v) (fuel : Nat)
    (hf : ∀ ss, v = FieldVal.varr ss → ss.length ≤ fuel) (rest : List Char) :
    parseVal fuel ((json_val v).data ++ rest) = some (v, rest) := by
  cases v with
  | vnull => exact parseVal_null fuel rest
  | vstr s =>
    have hs : PlainStr s := hc
    have hd : (json_val (.vstr s)).data = '"' :: (s.data ++ ['"']) := by
      show (jstr s).data = _
      exact jstr_plain_data hs
    rw [hd]
    show parseVal fuel ('"' :: ((s.data ++ ['"']) ++ rest)) = _
    rw [parseVal_quote]
    rw [List.append_assoc]
    simp only [List.singleton_append]
    rw [takeStr_rt s.data (quote_not_mem hs) rest]
  | varr ss =>
    have hd : ((json_val (.varr ss)).data ++ rest) =
        '[' :: ((strJoin (", ") (ss.map jstr)).data ++ (']' :: rest)) := by
      show ((("[" ++ strJoin (", ") (ss.map jstr)) ++ "]").data ++ rest) = _
      simp [String.data_append]
    rw [hd, parseVal_bracket]
    cases ss with
    | nil =>
      show (match parseQStrList fuel ((("" : String)).data ++ (']' :: rest)) with
        | none => none
        | some (ss2, r) => some (FieldVal.varr ss2, r)) = _
      rfl
    | cons s0 tl =>
      have hs0 : PlainStr s0 := hc s0 (List.mem_cons_self _ _)
      have hJ : ∃ t, (strJoin (", ") ((s0 :: tl).map jstr)).data = '"' :: t := by
        cases tl with
        | nil =>
          refine ⟨s0.data ++ ['"'], ?_⟩
          show (jstr s0).data = _
          rw [jstr_plain_data hs0]
        | cons s1 tl1 =>
          refine ⟨(s0.data ++ ['"']) ++ (", ").data ++
            (strJoin (", ") ((s1 :: tl1).map jstr)).data, ?_⟩
          show (strJoin (", ") (jstr s0 :: jstr s1 :: (tl1.map jstr))).data = _
          rw [strJoin_data]
          simp [jstr_plain_data hs0, String.data_append, List.append_assoc]
      obtain ⟨t, ht⟩ := hJ
      rw [ht]
      have heq : parseQStrList fuel (('"' :: t) ++ (']' :: rest)) =
          parseSepQStrs fuel (('"' :: t) ++ (']' :: rest)) := rfl
      rw [heq, ← ht]
      rw [parseSepQStrs_rt (s0 :: tl) hc (by simp) fuel (hf _ rfl) rest]

theorem sortKeys_canon {e : Entry} (h : (e.map Prod.fst).Pairwise (· < ·)) :
    sortKeys e = e := by
  unfold sortKeys
  apply List.Sorted.insertionSort_eq
  exact (List.pairwise_map.mp h).imp (fun hlt => le_of_lt hlt)

theorem pair_data {k : String} (hk : PlainStr k) (v : FieldVal) :
    (jstr k ++ ": " ++ json_val v).data =
      '"' :: ((k.data ++ ['"']) ++ (':' :: ' ' :: (json_val v).data)) := by
  show ((jstr k ++ ": ") ++ json_val v).data = _
  simp [String.data_append, jstr_plain_data hk, List.append_assoc]

theorem parsePairs_rt :
    ∀ (e : Entry), (∀ p ∈ e, PlainStr p.1 ∧ ValCanon p.2) → e ≠ [] →
      ∀ (fuel : Nat), e.length ≤ fuel →
        (∀ p ∈ e, ∀ ss, p.2 = FieldVal.varr ss → ss.length + e.length ≤ fuel) →
        ∀ rest : List Char,
          parsePairs fuel
            ((strJoin (", ")
              (e.map (fun p => jstr p.1 ++ ": " ++ json_val p.2))).data ++
              ('\x7d' :: rest)) = some (e, rest) := by
  intro e
  induction e with
  | nil =>
    intro _ hne
    exact absurd rfl hne
  | cons p tl ih =>
    obtain ⟨k, v⟩ := p
    intro hp _ fuel hlen hvb rest
    cases fuel with
    | zero => simp at hlen
    | succ f =>
      have hk : PlainStr k := (hp (k, v) (List.mem_cons_self _ _)).1
      have hv : ValCanon v := (hp (k, v) (List.mem_cons_self _ _)).2
      have hvf : ∀ ss, v = FieldVal.varr ss → ss.length ≤ f := by
        intro ss hss
        have := hvb (k, v) (List.mem_cons_self _ _) ss hss
        simp at this
        omega
      cases tl with
      | nil =>
        show parsePairs (f + 1)
          ((strJoin (", ") [jstr k ++ ": " ++ json_val v]).data ++ ('\x7d' :: rest)) = _
        show parsePairs (f + 1)
          ((jstr k ++ ": " ++ json_val v).data ++ ('\x7d' :: rest)) = _
        rw [pair_data hk v]
        show parsePairs (f + 1)
          ('"' :: (((k.data ++ ['"']) ++ (':' :: ' ' :: (json_val v).data)) ++
            ('\x7d' :: rest))) = _
        unfold parsePairs
        have hq : parseQStr ('"' :: (((k.data ++ ['"']) ++
            (':' :: ' ' :: (json_val v).data)) ++ ('\x7d' :: rest))) =
            some (k.data, ':' :: ' ' :: ((json_val v).data ++ ('\x7d' :: rest))) := by
          unfold parseQStr
          simp only [List.append_assoc, List.singleton_append, List.cons_append]
          exact takeStr_rt k.data (quote_not_mem hk) _
        rw [hq]
        show (match parseVal f ((json_val v).data ++ ('\x7d' :: rest)) with
          | none => none
          | some (v2, r3) =>
            match r3 with
            | '\x7d' :: r4 => some ([(String.mk k.data, v2)], r4)
            | ',' :: ' ' :: r4 =>
              match parsePairs f r4 with
              | none => none
              | some (e2, r5) => some ((String.mk k.data, v2) :: e2, r5)
            | _ => none) = _
        rw [json_val_rt v hv f hvf]
        rfl
      | cons p2 tl2 =>
        have hjoin : (strJoin (", ")
            (((k, v) :: p2 :: tl2).map
              (fun p => jstr p.1 ++ ": " ++ json_val p.2))).data =
            '"' :: ((k.data ++ ['"']) ++ (':' :: ' ' :: ((json_val v).data ++
              (',' :: ' ' :: (strJoin (", ")
                ((p2 :: tl2).map
                  (fun p => jstr p.1 ++ ": " ++ json_val p.2))).data)))) := by
          show (strJoin (", ") ((jstr k ++ ": " ++ json_val v) ::
            (jstr p2.1 ++ ": " ++ json_val p2.2) ::
            (tl2.map (fun p => jstr p.1 ++ ": " ++ json_val p.2)))).data = _
          rw [strJoin_data]
          simp [String.data_append, jstr_plain_data hk, List.append_assoc]
        rw [hjoin]
        show parsePairs (f + 1)
          ('"' :: (((k.data ++ ['"']) ++ (':' :: ' ' :: ((json_val v).data ++
            (',' :: ' ' :: (strJoin (", ")
              ((p2 :: tl2).map
                (fun p => jstr p.1 ++ ": " ++ json_val p.2))).data)))) ++
            ('\x7d' :: rest))) = _
        unfold parsePairs
        have hq : parseQStr ('"' :: (((k.data ++ ['"']) ++
            (':' :: ' ' :: ((json_val v).data ++ (',' :: ' ' :: (strJoin (", ")
              ((p2 :: tl2).map
                (fun p => jstr p.1 ++ ": " ++ json_val p.2))).data)))) ++
            ('\x7d' :: rest))) =
            some (k.data, ':' :: ' ' :: ((json_val v).data ++ (',' :: ' ' ::
              ((strJoin (", ") ((p2 :: tl2).map
                (fun p => jstr p.1 ++ ": " ++ json_val p.2))).data ++
                ('\x7d' :: rest))))) := by
          unfold parseQStr
          simp only [List.append_assoc, List.singleton_append, List.cons_append]
          exact takeStr_rt k.data (quote_not_mem hk) _
        rw [hq]
        show (match parseVal f ((json_val v).data ++ (',' :: ' ' ::
            ((strJoin (", ") ((p2 :: tl2).map
              (fun p => jstr p.1 ++ ": " ++ json_val p.2))).data ++
              ('\x7d' :: rest)))) with
          | none => none
          | some (v2, r3) =>
            match r3 with
            | '\x7d' :: r4 => some ([(String.mk k.data, v2)], r4)
            | ',' :: ' ' :: r4 =>
              match parsePairs f r4 with
              | none => none
              | some (e2, r5) => some ((String.mk k.data, v2) :: e2, r5)
            | _ => none) = _
        rw [json_val_rt v hv f hvf]
        have htl := ih (fun q hq2 => hp q (List.mem_cons_of_mem _ hq2)) (by simp) f
          (by simpa using Nat.le_of_succ_le_succ hlen)
          (by
            intro q hq2 ss hss
            have h5 := hvb q (List.mem_cons_of_mem _ hq2) ss hss
            simp only [List.length_cons] at h5 ⊢
            omega)
          rest
        show (match parsePairs f ((strJoin (", ") ((p2 :: tl2).map
            (fun p => jstr p.1 ++ ": " ++ json_val p.2))).data ++ ('\x7d' :: rest)) with
          | none => none
          | some (e2, r5) => some ((String.mk k.data, v) :: e2, r5)) = _
        rw [htl]

theorem parseEntry_quote (pf : Nat) (y : List Char) :
    parseEntry pf ('\x7b' :: '"' :: y) = parsePairs pf ('"' :: y) := rfl

theorem parseEntry_rt (e : Entry) (hc : EntryCanon e) (pf : Nat)
    (hlen : e.length ≤ pf)
    (hvb : ∀ p ∈ e, ∀ ss, p.2 = FieldVal.varr ss → ss.length + e.length ≤ pf)
    (rest : List Char) :
    parseEntry pf ((json_entry e).data ++ rest) = some (e, rest) := by
  obtain ⟨hsorted, hplain⟩ := hc
  have hsk : sortKeys e = e := sortKeys_canon hsorted
  cases e with
  | nil => rfl
  | cons p0 tl =>
    obtain ⟨k0, v0⟩ := p0
    have hk0 : PlainStr k0 := (hplain (k0, v0) (List.mem_cons_self _ _)).1
    have hd : (json_entry ((k0, v0) :: tl)).data ++ rest =
        '\x7b' :: ((strJoin (", ")
          (((k0, v0) :: tl).map (fun p => jstr p.1 ++ ": " ++ json_val p.2))).data ++
          ('\x7d' :: rest)) := by
      unfold json_entry
      rw [hsk]
      simp [String.data_append, List.append_assoc]
    rw [hd]
    cases tl with
    | nil =>
      have hjd : (strJoin (", ")
          ([(k0, v0)].map (fun p => jstr p.1 ++ ": " ++ json_val p.2))).data =
          '"' :: ((k0.data ++ ['"']) ++ (':' :: ' ' :: (json_val v0).data)) :=
        pair_data hk0 v0
      rw [hjd]
      simp only [List.cons_append]
      rw [parseEntry_quote, ← List.cons_append, ← hjd]
      exact parsePairs_rt [(k0, v0)] hplain (by simp) pf hlen hvb rest
    | cons p1 tl1 =>
      have hjd : (strJoin (", ")
          (((k0, v0) :: p1 :: tl1).map (fun p => jstr p.1 ++ ": " ++ json_val p.2))).data =
          '"' :: ((k0.data ++ ['"']) ++ (':' :: ' ' :: ((json_val v0).data ++
            (',' :: ' ' :: (strJoin (", ")
              ((p1 :: tl1).map (fun p => jstr p.1 ++ ": " ++ json_val p.2))).data)))) := by
        show (strJoin (", ") ((jstr k0 ++ ": " ++ json_val v0) ::
          (jstr p1.1 ++ ": " ++ json_val p1.2) ::
          (tl1.map (fun p => jstr p.1 ++ ": " ++ json_val p.2)))).data = _
        rw [strJoin_data]
        simp [String.data_append, jstr_plain_data hk0, List.append_assoc]
      rw [hjd]
      simp only [List.cons_append]
      rw [parseEntry_quote, ← List.cons_append, ← hjd]
      exact parsePairs_rt ((k0, v0) :: p1 :: tl1) hplain (by simp) pf hlen hvb rest

theorem json_entry_head (e : Entry) :
    (json_entry e).data =
      '\x7b' :: ((strJoin (", ")
        ((sortKeys e).map (fun p => jstr p.1 ++ ": " ++ json_val p.2))).data ++
        ['\x7d']) := by
  unfold json_entry
  simp [String.data_append]

theorem parseEntries_rt :
    ∀ (entries : List Entry), (∀ e ∈ entries, EntryCanon e) → entries ≠ [] →
      ∀ (pf f : Nat), entries.length ≤ f →
        (∀ e ∈ entries, e.length ≤ pf ∧
          ∀ p ∈ e, ∀ ss, p.2 = FieldVal.varr ss → ss.length + e.length ≤ pf) →
        ∀ rest : List Char,
          parseEntries pf f
            ((strJoin (", ") (entries.map json_entry)).data ++ (']' :: rest)) =
            some (entries, rest) := by
  intro entries
  induction entries with
  | nil =>
    intro _ hne
    exact absurd rfl hne
  | cons e0 tl ih =>
    intro hc _ pf f hf hb rest
    cases f with
    | zero => simp at hf
    | succ f =>
      have hc0 := hc e0 (List.mem_cons_self _ _)
      have hb0 := hb e0 (List.mem_cons_self _ _)
      cases tl with
      | nil =>
        show parseEntries pf (f + 1) ((json_entry e0).data ++ (']' :: rest)) = _
        unfold parseEntries
        rw [parseEntry_rt e0 hc0 pf hb0.1 hb0.2]
        rfl
      | cons e1 tl1 =>
        have hjoin : (strJoin (", ") ((e0 :: e1 :: tl1).map json_entry)).data =
            (json_entry e0).data ++ (',' :: ' ' ::
              (strJoin (", ") ((e1 :: tl1).map json_entry)).data) := by
          show (strJoin (", ")
            (json_entry e0 :: json_entry e1 :: (tl1.map json_entry))).data = _
          rw [strJoin_data]
          simp [String.data_append, List.append_assoc]
        rw [hjoin]
        unfold parseEntries
        rw [List.append_assoc]
        simp only [List.cons_append]
        rw [parseEntry_rt e0 hc0 pf hb0.1 hb0.2]
        have htl := ih (fun x hx => hc x (List.mem_cons_of_mem _ hx)) (by simp)
          pf f (by simpa using Nat.le_of_succ_le_succ hf)
          (fun x hx => hb x (List.mem_cons_of_mem _ hx)) rest
        show (match parseEntries pf f
            ((strJoin (", ") ((e1 :: tl1).map json_entry)).data ++ (']' :: rest)) with
          | none => none
          | some (es, r3) => some (e0 :: es, r3)) = _
        rw [htl]

theorem parseEntryList_brace (pf f : Nat) (y : List Char) :
    parseEntryList pf f ('\x7b' :: y) = parseEntries pf f ('\x7b' :: y) := rfl

theorem parseStack_bracket (pf f : Nat) (cs : List Char) :
    parseStack pf f ('[' :: cs) =
      match parseEntryList pf f cs with
      | none => none
      | some (es, r) => some (some es, r) := rfl

theorem parseStack_rt_some (entries : List Entry)
    (hc : ∀ e ∈ entries, EntryCanon e) (pf f : Nat) (hf : entries.length ≤ f)
    (hpf : ∀ e ∈ entries, e.length ≤ pf ∧
      ∀ p ∈ e, ∀ ss, p.2 = FieldVal.varr ss → ss.length + e.length ≤ pf)
    (rest : List Char) :
    parseStack pf f ((json_dumps (some entries)).data ++ rest) =
      some (some entries, rest) := by
  have hd : (json_dumps (some entries)).data ++ rest =
      '[' :: ((strJoin (", ") (entries.map json_entry)).data ++ (']' :: rest)) := by
    show ((("[" ++ strJoin (", ") (entries.map json_entry)) ++ "]").data ++ rest) = _
    simp [String.data_append, List.append_assoc]
  rw [hd]
  cases entries with
  | nil => rfl
  | cons e0 tl =>
    rw [parseStack_bracket]
    cases tl with
    | nil =>
      have hjd : (strJoin (", ") ([e0].map json_entry)).data =
          '\x7b' :: ((strJoin (", ")
            ((sortKeys e0).map (fun p => jstr p.1 ++ ": " ++ json_val p.2))).data ++
            ['\x7d']) := json_entry_head e0
      rw [hjd]
      simp only [List.cons_append]
      rw [parseEntryList_brace, ← List.cons_append, ← hjd]
      rw [parseEntries_rt [e0] hc (by simp) pf f hf hpf rest]
    | cons e1 tl1 =>
      have hjd : (strJoin (", ") ((e0 :: e1 :: tl1).map json_entry)).data =
          '\x7b' :: (((strJoin (", ")
            ((sortKeys e0).map (fun p => jstr p.1 ++ ": " ++ json_val p.2))).data ++
            ['\x7d']) ++ (',' :: ' ' ::
              (strJoin (", ") ((e1 :: tl1).map json_entry)).data)) := by
        show (strJoin (", ")
          (json_entry e0 :: json_entry e1 :: (tl1.map json_entry))).data = _
        rw [strJoin_data]
        simp [json_entry_head, String.data_append, List.append_assoc]
      rw [hjd]
      simp only [List.cons_append]
      rw [parseEntryList_brace, ← List.cons_append, ← hjd]
      rw [parseEntries_rt (e0 :: e1 :: tl1) hc (by simp) pf f hf hpf rest]

theorem parseStack_null (pf f : Nat) (rest : List Char) :
    parseStack pf f ((json_dumps none).data ++ rest) = some (none, rest) := rfl

theorem varr_sup (e : Entry) :
    ∃ C, ∀ p ∈ e, ∀ ss, p.2 = FieldVal.varr ss → ss.length ≤ C := by
  induction e with
  | nil => exact ⟨0, by simp⟩
  | cons p tl ih =>
    obtain ⟨C, hC⟩ := ih
    refine ⟨(match p.2 with | FieldVal.varr ss => ss.length | _ => 0) + C, ?_⟩
    intro q hq ss hss
    rcases List.mem_cons.mp hq with heq | hq2
    · subst heq
      rw [hss]
      simp
    · exact le_trans (hC q hq2 ss hss) (Nat.le_add_left _ _)

theorem entry_bound (e : Entry) :
    ∃ B, e.length ≤ B ∧
      ∀ p ∈ e, ∀ ss, p.2 = FieldVal.varr ss → ss.length + e.length ≤ B := by
  obtain ⟨C, hC⟩ := varr_sup e
  exact ⟨C + e.length, Nat.le_add_left _ _,
    fun p hp ss hss => Nat.add_le_add_right (hC p hp ss hss) _⟩

theorem entries_bound (entries : List Entry) :
    ∃ B, ∀ e ∈ entries, e.length ≤ B ∧
      ∀ p ∈ e, ∀ ss, p.2 = FieldVal.varr ss → ss.length + e.length ≤ B := by
  induction entries with
  | nil => exact ⟨0, by simp⟩
  | cons e tl ih =>
    obtain ⟨B1, hB1a, hB1b⟩ := entry_bound e
    obtain ⟨B2, hB2⟩ := ih
    refine ⟨B1 + B2, ?_⟩
    intro e' he'
    rcases List.mem_cons.mp he' with heq | h2
    · subst heq
      exact ⟨le_trans hB1a (Nat.le_add_right _ _),
        fun p hp ss hss => le_trans (hB1b p hp ss hss) (Nat.le_add_right _ _)⟩
    · obtain ⟨ha, hb⟩ := hB2 e' h2
      exact ⟨le_trans ha (Nat.le_add_left _ _),
        fun p hp ss hss => le_trans (hb p hp ss hss) (Nat.le_add_left _ _)⟩

theorem json_dumps_inj {s1 s2 : Stack} (h1 : Canonical s1) (h2 : Canonical s2)
    (heq : json_dumps s1 = json_dumps s2) : s1 = s2 := by
  cases s1 with
  | none =>
    cases s2 with
    | none => rfl
    | some e2 =>
      exfalso
      have hd := congrArg String.data heq
      simp only [json_dumps, String.data_append] at hd
      simp at hd
  | some e1 =>
    cases s2 with
    | none =>
      exfalso
      have hd := congrArg String.data heq
      simp only [json_dumps, String.data_append] at hd
      simp at hd
    | some e2 =>
      obtain ⟨B1, hB1⟩ := entries_bound e1
      obtain ⟨B2, hB2⟩ := entries_bound e2
      have hp1 := parseStack_rt_some e1 h1 (B1 + B2) (e1.length + e2.length + 1)
        (by omega)
        (by
          intro e he
          obtain ⟨ha, hb⟩ := hB1 e he
          exact ⟨le_trans ha (Nat.le_add_right _ _),
            fun p hp ss hss => le_trans (hb p hp ss hss) (Nat.le_add_right _ _)⟩)
        []
      have hp2 := parseStack_rt_some e2 h2 (B1 + B2) (e1.length + e2.length + 1)
        (by omega)
        (by
          intro e he
          obtain ⟨ha, hb⟩ := hB2 e he
          exact ⟨le_trans ha (Nat.le_add_left _ _),
            fun p hp ss hss => le_trans (hb p hp ss hss) (Nat.le_add_left _ _)⟩)
        []
      rw [heq] at hp1
      rw [hp2] at hp1
      simp only [Option.some.injEq, Prod.mk.injEq] at hp1
      rw [hp1.1]

/-! Deduplication behavior of the stack-state registry. -/

theorem psn_RegOK (s : Stack) {st : GState} (hreg : RegOK st) :
    RegOK (resStateN (print_stack_node st s)) := by
  cases hk : pyLookup (json_dumps s) st.nodes with
  | some id =>
    rw [psn_found hk]
    exact hreg
  | none =>
    obtain ⟨hc, hn, hb, ha⟩ := psn_fresh_reg hk
    obtain ⟨hk1, hk2, hbound⟩ := hreg
    refine ⟨?_, ?_, ?_⟩
    · rw [hn, List.map_append, List.nodup_append]
      refine ⟨hk1, List.nodup_singleton _, ?_⟩
      intro x hx hx2
      simp only [List.map_cons, List.map_nil, List.mem_singleton] at hx2
      subst hx2
      exact (pyLookup_none_iff.mp hk) hx
    · rw [hn, List.map_append, List.nodup_append]
      refine ⟨hk2, List.nodup_singleton _, ?_⟩
      intro x hx hx2
      simp only [List.map_cons, List.map_nil, List.mem_singleton] at hx2
      subst hx2
      obtain ⟨p, hp, hps⟩ := List.mem_map.mp hx
      have := hbound p hp
      omega
    · rw [hn, hc]
      intro p hp
      rcases List.mem_append.mp hp with hp | hp
      · exact le_trans (hbound p hp) (Nat.le_succ _)
      · simp only [List.mem_singleton] at hp
        subst hp
        exact le_refl _

theorem resolve_mem_iff {st : GState} (hreg : RegOK st) {s1 s2 : Stack}
    {id1 id2 : Nat} {st' : GState} (h1 : (json_dumps s1, id1) ∈ st.nodes)
    (h2 : print_stack_node st s2 = .ok (id2, st')) :
    (id1 = id2 ↔ json_dumps s1 = json_dumps s2) := by
  obtain ⟨hk1, hk2, hbound⟩ := hreg
  cases hk : pyLookup (json_dumps s2) st.nodes with
  | some i =>
    rw [psn_found hk] at h2
    cases h2
    constructor
    · intro hid
      have hm2 := pyLookup_mem hk
      have hp := List.inj_on_of_nodup_map hk2 h1 hm2 hid
      exact congrArg Prod.fst hp
    · intro hkeq
      have hl1 := pyLookup_of_mem_nodup hk1 h1
      rw [hkeq, hk] at hl1
      exact ((Option.some.injEq _ _).mp hl1).symm
  | none =>
    have hid2 := psn_ok_id hk h2
    constructor
    · intro hid
      exfalso
      have hb := hbound _ h1
      simp only at hb
      omega
    · intro hkeq
      exfalso
      have hl1 := pyLookup_of_mem_nodup hk1 h1
      rw [hkeq, hk] at hl1
      exact Option.noConfusion hl1

/-- C1: stack states are deduplicated by their canonical serialization:
with the registry well formed, a previously registered stack resolves to
the same identity as a newly resolved one exactly when their canonical
serializations coincide; canonical stacks that differ structurally in any
way receive different identities, because the serialization is injective
on canonical stacks. -/
theorem spec2proof_C1_stack_dedup (st : GState) (s1 s2 : Stack) (id1 id2 : Nat)
    (st' : GState) (hreg : RegOK st) (h1 : (json_dumps s1, id1) ∈ st.nodes)
    (h2 : print_stack_node st s2 = .ok (id2, st')) :
    (json_dumps s1 = json_dumps s2 → id1 = id2) ∧
    (json_dumps s1 ≠ json_dumps s2 → id1 ≠ id2) ∧
    (Canonical s1 → Canonical s2 → s1 ≠ s2 → id1 ≠ id2) := by
  have hiff := resolve_mem_iff ⟨hreg.1, hreg.2.1, hreg.2.2⟩ h1 h2
  refine ⟨fun h => hiff.mpr h, fun h hid => h (hiff.mp hid), ?_⟩
  intro hc1 hc2 hne hid
  exact hne (json_dumps_inj hc1 hc2 (hiff.mp hid))

theorem null_key_ne_some (l : List Entry) :
    json_dumps none ≠ json_dumps (some l) := by
  intro h
  have hd := congrArg String.data h
  simp only [json_dumps, String.data_append] at hd
  simp at hd

/-- C5: the empty/terminal marker and a list of entries (even the empty
list) never resolve to the same registry node; a fresh empty marker is
rendered as the single point-shaped statement, shared thereafter, while a
fresh empty entry list is rendered as a bordered table with zero rows,
not the point shape. -/
theorem spec2proof_C5_empty_marker (st st0 : GState) (l : List Entry)
    (id1 id2 : Nat) (st1 st2 : GState) (hreg : RegOK st)
    (h1 : print_stack_node st none = .ok (id1, st1))
    (h2 : print_stack_node st1 (some l) = .ok (id2, st2))
    (hk0 : pyLookup (json_dumps (some [])) st0.nodes = none) :
    id1 ≠ id2 ∧
    (pyLookup (json_dumps none) st.nodes = none →
      st1.out = st.out ++ [("N" ++ toString id1 ++ " [ shape = point ]\n")]) ∧
    (∃ stf, print_stack_node st0 (some []) = .ok (st0.counter + 1, stf) ∧
      stf.out = st0.out ++
        [("N" ++ toString (st0.counter + 1) ++ " [ shape = plain, label=<\n"),
         ("<TABLE BORDER=\"0\">\n"), ("</TABLE>\n"), ("> ];\n")]) := by
  refine ⟨?_, ?_, ?_⟩
  · have hreg1 : RegOK st1 := by
      have hx := psn_RegOK none hreg
      rw [h1] at hx
      exact hx
    have hmem : (json_dumps none, id1) ∈ st1.nodes := psn_key_mem h1
    have hiff := resolve_mem_iff hreg1 hmem h2
    intro hid
    exact null_key_ne_some l (hiff.mp hid)
  · intro hk
    unfold print_stack_node at h1
    simp only [hk] at h1
    simp only [Except.ok.injEq, Prod.mk.injEq] at h1
    obtain ⟨hid, hst⟩ := h1
    subst hid
    rw [← hst]
    rfl
  · unfold print_stack_node
    simp only [hk0]
    refine ⟨_, rfl, ?_⟩
    rw [emits_out, emit_out, emit_out]
    simp [List.append_assoc]

/-- C5 witness: from the initial state, the empty marker becomes point
node 1 and the empty entry list becomes table node 2. -/
theorem spec2proof_C5_witness :
    (1 : Nat) ≠ 2 ∧
    (pyLookup (json_dumps none) init_state.nodes = none →
      (resStateN (print_stack_node init_state none)).out = init_state.out ++
        [("N" ++ toString 1 ++ " [ shape = point ]\n")]) ∧
    (∃ stf, print_stack_node init_state (some []) =
        .ok (init_state.counter + 1, stf) ∧
      stf.out = init_state.out ++
        [("N" ++ toString (init_state.counter + 1) ++ " [ shape = plain, label=<\n"),
         ("<TABLE BORDER=\"0\">\n"), ("</TABLE>\n"), ("> ];\n")]) :=
  spec2proof_C5_empty_marker init_state init_state []
    1 2 (resStateN (print_stack_node init_state none))
    (resStateN (print_stack_node (resStateN (print_stack_node init_state none))
      (some [])))
    (by decide) rfl rfl (by decide)

/-- C1 witness: with the stack `s1C1` registered as node 1, resolving the
entry-reordered stack `s2C1` yields the distinct node 2. -/
theorem spec2proof_C1_witness :
    RegOK stC1 ∧ ((json_dumps s1C1, 1) ∈ stC1.nodes) ∧
    ((json_dumps s1C1 = json_dumps s2C1 → (1 : Nat) = 2) ∧
     (json_dumps s1C1 ≠ json_dumps s2C1 → (1 : Nat) ≠ 2) ∧
     (Canonical s1C1 → Canonical s2C1 → s1C1 ≠ s2C1 → (1 : Nat) ≠ 2)) :=
  ⟨by decide, by decide,
    spec2proof_C1_stack_dedup stC1 s1C1 s2C1 1 2
      (resStateN (print_stack_node stC1 s2C1)) (by decide) (by decide) rfl⟩

/-! Determinism of a whole run. -/

theorem rulesPassR_det {types : Types} :
    ∀ {rules : List (String × Rule)} {st st1 st2 : GState},
      RulesPassR types st rules st1 → RulesPassR types st rules st2 →
      st1 = st2 := by
  intro rules
  induction rules with
  | nil =>
    intro st st1 st2 h1 h2
    cases h1
    cases h2
    rfl
  | cons p rest ih =>
    intro st st1 st2 h1 h2
    cases h1
    rename_i stm1 hp1 hr1
    cases h2
    rename_i stm2 hp2 hr2
    rw [hp1] at hp2
    cases hp2
    exact ih hr1 hr2

theorem linkPassR_det :
    ∀ {rules : List (String × Rule)} {st st1 st2 : GState},
      LinkPassR st rules st1 → LinkPassR st rules st2 → st1 = st2 := by
  intro rules
  induction rules with
  | nil =>
    intro st st1 st2 h1 h2
    cases h1
    cases h2
    rfl
  | cons p rest ih =>
    intro st st1 st2 h1 h2
    cases h1
    rename_i stm1 hp1 hr1
    cases h2
    rename_i stm2 hp2 hr2
    rw [hp1] at hp2
    cases hp2
    exact ih hr1 hr2

/-- C8: a run of the whole pipeline is deterministic — two runs on the
same document print identical output, piece for piece, including every
node identity. -/
theorem spec2proof_C8_deterministic (d : Doc) (o1 o2 : List String)
    (h1 : RunsR d o1) (h2 : RunsR d o2) : o1 = o2 := by
  cases h1
  rename_i st1a st2a hra hla
  cases h2
  rename_i st1b st2b hrb hlb
  have e1 : st1a = st1b := rulesPassR_det hra hrb
  subst e1
  have e2 : st2a = st2b := linkPassR_det hla hlb
  subst e2
  rfl

/-- C8 witness: two runs on the empty document print the same output. -/
theorem spec2proof_C8_witness :
    RunsR { types := [], rules := [] }
      ((emit (emits init_state preamble) footerPiece).out) ∧
    ((emit (emits init_state preamble) footerPiece).out =
      (emit (emits init_state preamble) footerPiece).out) :=
  ⟨RunsR.mk _ _ _ (RulesPassR.nil _) (LinkPassR.nil _),
   spec2proof_C8_deterministic { types := [], rules := [] } _ _
     (RunsR.mk _ _ _ (RulesPassR.nil _) (LinkPassR.nil _))
     (RunsR.mk _ _ _ (RulesPassR.nil _) (LinkPassR.nil _))⟩
